import Mathlib

/-!
# Limit order book simulator: order book and matching engine

A shallow embedding of `order.cpp`, `order_book.cpp` and `matching_engine.cpp`.

Modelling conventions.

* `uint64_t` order ids are `Nat`; `int` quantities are `Int` (the matching loops only take
  minima and differences of quantities, so no overflow arises there).
* `double` prices are only ever compared and used as map keys. They are modelled by `Int`
  (an exact, totally ordered price grid, e.g. ticks). This covers the prices that are
  numbers. A `double` can also be NaN, which the constructor accepts for a Limit order;
  the section on `double` prices (namespace `Dbl`) embeds the constructor, `add_order` and
  the matchers again with a price type that has NaN, and `process_order_toDbl` shows that
  the two embeddings agree on prices that are numbers.
* `std::map<double, std::deque<Order>, Cmp>` is a list of `(key, deque)` pairs kept in the
  iteration order of the map; `begin()` is the head of the list.
* `std::unordered_map<uint64_t, std::pair<double, bool>>` is a partial function on ids.
* Timestamps (clock reads), logging and the fill callback do not influence any value
  computed by the book or the engine and are left out.
* The inner `while` loop of the matchers is run with explicit fuel and returns `none` when
  the fuel runs out; `match_queue_eq` shows that the fuel supplied is always enough.
-/

namespace LOB

/-! ## order.hpp / order.cpp -/

structure Order where
  order_id : Nat
  price : Int
  quantity : Int
  side : String
  type : String
deriving DecidableEq, Repr

def Order.is_buy (o : Order) : Bool := o.side == "BUY"

def Order.is_sell (o : Order) : Bool := o.side == "SELL"

def Order.is_limit (o : Order) : Bool := o.type == "LIMIT"

def Order.is_market (o : Order) : Bool := o.type == "MARKET"

/-- The validating constructor `Order::Order(id, p, qty, s, t)`; `std::invalid_argument`
is the `error` case. -/
def Order.new (id : Nat) (p : Int) (qty : Int) (s t : String) : Except String Order :=
  if s ≠ "BUY" ∧ s ≠ "SELL" then .error "Order side must be \x27BUY\x27 or \x27SELL\x27"
  else if t ≠ "LIMIT" ∧ t ≠ "MARKET" then
    .error "Order type must be \x27LIMIT\x27 or \x27MARKET\x27"
  else if qty ≤ 0 then .error "Order quantity must be positive"
  else if t = "LIMIT" ∧ p ≤ 0 then .error "Limit order price must be positive"
  else .ok { order_id := id, price := p, quantity := qty, side := s, type := t }

def Order.create_limit_order (id : Nat) (price : Int) (quantity : Int) (side : String) :
    Except String Order :=
  Order.new id price quantity side "LIMIT"

def Order.create_market_order (id : Nat) (quantity : Int) (side : String) :
    Except String Order :=
  Order.new id 0 quantity side "MARKET"

/-- An order value that the validating constructor produces. -/
def Order.Validated (o : Order) : Prop :=
  (Order.new o.order_id o.price o.quantity o.side o.type).toOption = some o

instance (o : Order) : Decidable o.Validated := by
  unfold Order.Validated; infer_instance

/-! ## order_book.hpp / order_book.cpp -/

/-- One entry of a price map: the key and the deque of orders stored under it. -/
abbrev Level := Int × List Order

/-- Key order of `sell_orders` (`std::less<double>`): does `a` come before `b`? -/
def ask_before (a b : Int) : Bool := decide (a < b)

/-- Key order of `buy_orders` (`std::greater<double>`): does `a` come before `b`? -/
def bid_before (a b : Int) : Bool := decide (a > b)

/-- The access `m[price]` followed by the in-place edit `f` of the deque it returns.
`operator[]` creates the key with an empty deque when it is absent. -/
def map_at (before : Int → Int → Bool) (price : Int) (f : List Order → List Order) :
    List Level → List Level
  | [] => [(price, f [])]
  | (k, q) :: rest =>
    if k = price then (k, f q) :: rest
    else if before price k then (price, f []) :: (k, q) :: rest
    else (k, q) :: map_at before price f rest

/-- The deque stored under `price`, if the key is present (`find`). -/
def map_find (price : Int) : List Level → Option (List Order)
  | [] => none
  | (k, q) :: rest => if k = price then some q else map_find price rest

structure OrderBook where
  buy_orders : List Level
  sell_orders : List Level
  order_locations : Nat → Option (Int × Bool)

/-- The default-constructed book. -/
def OrderBook.init : OrderBook :=
  { buy_orders := [], sell_orders := [], order_locations := fun _ => none }

/-- The assignment `order_locations[id] = loc`. -/
def loc_assign (m : Nat → Option (Int × Bool)) (id : Nat) (loc : Int × Bool) :
    Nat → Option (Int × Bool) :=
  fun k => if k = id then some loc else m k

/-- The call `order_locations.erase(it)` for the entry of `id`. -/
def loc_erase (m : Nat → Option (Int × Bool)) (id : Nat) : Nat → Option (Int × Bool) :=
  fun k => if k = id then none else m k

def OrderBook.add_order (b : OrderBook) (order : Order) : OrderBook :=
  if !order.is_limit then b
  else if order.is_buy then
    { b with
      buy_orders := map_at bid_before order.price (fun q => q ++ [order]) b.buy_orders
      order_locations := loc_assign b.order_locations order.order_id (order.price, true) }
  else
    { b with
      sell_orders := map_at ask_before order.price (fun q => q ++ [order]) b.sell_orders
      order_locations := loc_assign b.order_locations order.order_id (order.price, false) }

def OrderBook.remove_order_from_level (b : OrderBook) (order_id : Nat) (price : Int)
    (is_buy : Bool) : OrderBook :=
  if is_buy then
    { b with buy_orders :=
        map_at bid_before price (fun q => q.filter (fun o => o.order_id ≠ order_id)) b.buy_orders }
  else
    { b with sell_orders :=
        map_at ask_before price (fun q => q.filter (fun o => o.order_id ≠ order_id)) b.sell_orders }

def OrderBook.clean_empty_levels (b : OrderBook) : OrderBook :=
  { b with
    buy_orders := b.buy_orders.filter (fun l => !l.2.isEmpty)
    sell_orders := b.sell_orders.filter (fun l => !l.2.isEmpty) }

def OrderBook.cancel_order (b : OrderBook) (order_id : Nat) : Bool × OrderBook :=
  match b.order_locations order_id with
  | none => (false, b)
  | some (price, is_buy) =>
    let b1 := b.remove_order_from_level order_id price is_buy
    let b2 := { b1 with order_locations := loc_erase b1.order_locations order_id }
    (true, b2.clean_empty_levels)

/-- The range-for of `modify_order`: the first order with the id gets the new quantity;
`none` when the loop runs off the end. -/
def modify_first (order_id : Nat) (new_quantity : Int) : List Order → Option (List Order)
  | [] => none
  | o :: rest =>
    if o.order_id = order_id then some ({ o with quantity := new_quantity } :: rest)
    else (modify_first order_id new_quantity rest).map (fun r => o :: r)

def OrderBook.modify_order (b : OrderBook) (order_id : Nat) (new_quantity : Int) :
    Bool × OrderBook :=
  match b.order_locations order_id with
  | none => (false, b)
  | some (price, is_buy) =>
    if new_quantity ≤ 0 then (false, b)
    else
      let edit : List Order → List Order :=
        fun q => (modify_first order_id new_quantity q).getD q
      if is_buy then
        ((modify_first order_id new_quantity ((map_find price b.buy_orders).getD [])).isSome,
          { b with buy_orders := map_at bid_before price edit b.buy_orders })
      else
        ((modify_first order_id new_quantity ((map_find price b.sell_orders).getD [])).isSome,
          { b with sell_orders := map_at ask_before price edit b.sell_orders })

/-- The sum of the quantities of a deque. The code sums in `int`; the sum is taken in `Int`
here, which is the same value as long as the total fits in 32 bits. -/
def calculate_level_quantity (orders : List Order) : Int :=
  orders.foldl (fun total order => total + order.quantity) 0

def OrderBook.total_orders (b : OrderBook) : Nat :=
  (b.buy_orders.foldl (fun count l => count + l.2.length) 0) +
    (b.sell_orders.foldl (fun count l => count + l.2.length) 0)

def OrderBook.empty (b : OrderBook) : Bool :=
  b.buy_orders.isEmpty && b.sell_orders.isEmpty

/-! ## matching_engine.hpp / matching_engine.cpp -/

structure Fill where
  buy_order_id : Nat
  sell_order_id : Nat
  price : Int
  quantity : Int
deriving DecidableEq, Repr

structure MatchingEngine where
  order_book : OrderBook
  fill_count : Nat
  total_traded_volume : Int

/-- A freshly constructed engine. -/
def MatchingEngine.init : MatchingEngine :=
  { order_book := OrderBook.init, fill_count := 0, total_traded_volume := 0 }

def create_fill (aggressive_order passive_order : Order) (fill_price : Int)
    (fill_quantity : Int) : Fill :=
  { buy_order_id :=
      if aggressive_order.is_buy then aggressive_order.order_id else passive_order.order_id
    sell_order_id :=
      if aggressive_order.is_sell then aggressive_order.order_id else passive_order.order_id
    price := fill_price
    quantity := fill_quantity }

def determine_fill_price (_aggressive_order passive_order : Order) : Int :=
  passive_order.price

/-- The inner loop `while (!queue.empty() && remaining_order.quantity > 0)` shared by the
four matching branches. `mk remaining passive fill_quantity` is the branch's fill
construction. Returns the remaining order, the deque left behind and the fills pushed. -/
def match_queue (mk : Order → Order → Int → Fill) :
    Nat → Order → List Order → Option (Order × List Order × List Fill)
  | 0, _, _ => none
  | fuel + 1, remaining_order, queue =>
    match queue with
    | [] => some (remaining_order, [], [])
    | passive_order :: rest =>
      if remaining_order.quantity > 0 then
        let fill_quantity := min remaining_order.quantity passive_order.quantity
        let fill := mk remaining_order passive_order fill_quantity
        let remaining1 : Order :=
          { remaining_order with quantity := remaining_order.quantity - fill_quantity }
        let passive1 : Order :=
          { passive_order with quantity := passive_order.quantity - fill_quantity }
        let queue1 := if passive1.quantity = 0 then rest else passive1 :: rest
        (match_queue mk fuel remaining1 queue1).map
          (fun r => (r.1, r.2.1, fill :: r.2.2))
      else some (remaining_order, queue, [])

/-- The outer loop `for (it = side.begin(); it != side.end() && remaining.quantity > 0;)`.
`stop remaining level_price` is the `break` test of the branch. A level whose deque is
empty after the inner loop is erased, otherwise the iterator advances. -/
def match_levels (stop : Order → Int → Bool) (mk : Order → Order → Int → Fill) :
    Order → List Level → Option (Order × List Level × List Fill)
  | remaining_order, [] => some (remaining_order, [], [])
  | remaining_order, (price, queue) :: rest =>
    if remaining_order.quantity > 0 then
      if stop remaining_order price then some (remaining_order, (price, queue) :: rest, [])
      else
        match match_queue mk (queue.length + 1) remaining_order queue with
        | none => none
        | some (remaining1, queue1, fills1) =>
          match match_levels stop mk remaining1 rest with
          | none => none
          | some (remaining2, rest2, fills2) =>
            some (remaining2,
              if queue1.isEmpty then rest2 else (price, queue1) :: rest2,
              fills1 ++ fills2)
    else some (remaining_order, (price, queue) :: rest, [])

def MatchingEngine.match_limit_order (e : MatchingEngine) (order : Order) :
    Option (List Fill × MatchingEngine) :=
  if order.is_buy then
    match match_levels (fun remaining ask_price => decide (remaining.price < ask_price))
        (fun remaining passive fq =>
          create_fill remaining passive (determine_fill_price remaining passive) fq)
        order e.order_book.sell_orders with
    | none => none
    | some (remaining_order, sells, fills) =>
      let book : OrderBook := { e.order_book with sell_orders := sells }
      some (fills, { e with order_book :=
        if remaining_order.quantity > 0 then book.add_order remaining_order else book })
  else
    match match_levels (fun remaining bid_price => decide (remaining.price > bid_price))
        (fun remaining passive fq =>
          create_fill passive remaining (determine_fill_price remaining passive) fq)
        order e.order_book.buy_orders with
    | none => none
    | some (remaining_order, buys, fills) =>
      let book : OrderBook := { e.order_book with buy_orders := buys }
      some (fills, { e with order_book :=
        if remaining_order.quantity > 0 then book.add_order remaining_order else book })

def MatchingEngine.match_market_order (e : MatchingEngine) (order : Order) :
    Option (List Fill × MatchingEngine) :=
  if order.is_buy then
    match match_levels (fun _ _ => false)
        (fun remaining passive fq => create_fill remaining passive passive.price fq)
        order e.order_book.sell_orders with
    | none => none
    | some (_, sells, fills) =>
      some (fills, { e with order_book := { e.order_book with sell_orders := sells } })
  else
    match match_levels (fun _ _ => false)
        (fun remaining passive fq => create_fill passive remaining passive.price fq)
        order e.order_book.buy_orders with
    | none => none
    | some (_, buys, fills) =>
      some (fills, { e with order_book := { e.order_book with buy_orders := buys } })

/-- The two running aggregates. The code keeps `total_traded_volume` in a `double`; here
the sum of price times quantity is exact. -/
def MatchingEngine.update_statistics (e : MatchingEngine) (fill : Fill) : MatchingEngine :=
  { e with
    fill_count := e.fill_count + 1
    total_traded_volume := e.total_traded_volume + fill.price * fill.quantity }

def MatchingEngine.process_order (e : MatchingEngine) (order : Order) :
    Option (List Fill × MatchingEngine) :=
  if order.is_limit then
    (e.match_limit_order order).map
      (fun r => (r.1, r.1.foldl MatchingEngine.update_statistics r.2))
  else if order.is_market then
    (e.match_market_order order).map
      (fun r => (r.1, r.1.foldl MatchingEngine.update_statistics r.2))
  else some ([], e)

def MatchingEngine.cancel_order (e : MatchingEngine) (order_id : Nat) :
    Bool × MatchingEngine :=
  ((e.order_book.cancel_order order_id).1,
    { e with order_book := (e.order_book.cancel_order order_id).2 })

def MatchingEngine.modify_order (e : MatchingEngine) (order_id : Nat) (new_quantity : Int) :
    Bool × MatchingEngine :=
  ((e.order_book.modify_order order_id new_quantity).1,
    { e with order_book := (e.order_book.modify_order order_id new_quantity).2 })

/-! ## Reachable engine states -/

/-- The states obtained from a fresh engine by `process_order` calls with validated
orders whose ids are pairwise distinct, `cancel_order` calls and `modify_order` calls.
The list records the ids submitted so far. -/
inductive Reachable : List Nat → MatchingEngine → Prop
  | init : Reachable [] MatchingEngine.init
  | process {used : List Nat} {e e1 : MatchingEngine} {fills : List Fill} (o : Order) :
      Reachable used e → o.Validated → o.order_id ∉ used →
      e.process_order o = some (fills, e1) → Reachable (o.order_id :: used) e1
  | cancel {used : List Nat} {e : MatchingEngine} (order_id : Nat) :
      Reachable used e → Reachable used (e.cancel_order order_id).2
  | modify {used : List Nat} {e : MatchingEngine} (order_id : Nat) (new_quantity : Int) :
      Reachable used e → Reachable used (e.modify_order order_id new_quantity).2

/-- All orders stored on one side, in iteration order. -/
def side_orders (m : List Level) : List Order := (m.map Prod.snd).flatten

/-- All orders resting in the book. -/
def OrderBook.resting (b : OrderBook) : List Order :=
  side_orders b.buy_orders ++ side_orders b.sell_orders

/-- An order with this id is resting in the book. -/
def OrderBook.is_resting (b : OrderBook) (order_id : Nat) : Prop :=
  ∃ o ∈ b.resting, o.order_id = order_id

instance (b : OrderBook) (order_id : Nat) : Decidable (b.is_resting order_id) := by
  unfold OrderBook.is_resting; infer_instance

/-! ## Auxiliary definitions used to state and prove the properties -/

/-- Structural form of the inner matching loop on quantities alone: the quantity `r` still
to fill, the deque, and the matches made (the passive order as it rested, and the matched
quantity). -/
def drain : Int → List Order → Int × List Order × List (Order × Int)
  | r, [] => (r, [], [])
  | r, p :: rest =>
    if 0 < r then
      if p.quantity ≤ r then
        ((drain (r - p.quantity) rest).1, (drain (r - p.quantity) rest).2.1,
          (p, p.quantity) :: (drain (r - p.quantity) rest).2.2)
      else (0, { p with quantity := p.quantity - r } :: rest, [(p, r)])
    else (r, p :: rest, [])

/-- Structural form of the outer matching loop. -/
def sweep (stop : Int → Bool) : Int → List Level → Int × List Level × List (Order × Int)
  | r, [] => (r, [], [])
  | r, (price, queue) :: rest =>
    if 0 < r then
      if stop price then (r, (price, queue) :: rest, [])
      else
        ((sweep stop (drain r queue).1 rest).1,
          (if (drain r queue).2.1.isEmpty then (sweep stop (drain r queue).1 rest).2.1
            else (price, (drain r queue).2.1) :: (sweep stop (drain r queue).1 rest).2.1),
          (drain r queue).2.2 ++ (sweep stop (drain r queue).1 rest).2.2)
    else (r, (price, queue) :: rest, [])

/-- Same order up to the remaining quantity. -/
def Order.same_but_quantity (a b : Order) : Prop :=
  a.order_id = b.order_id ∧ a.price = b.price ∧ a.side = b.side ∧ a.type = b.type

/-- Sum of the matched quantities. -/
def ev_total (evs : List (Order × Int)) : Int := (evs.map Prod.snd).sum

/-- Sum of the matched quantities against the passive id `x`. -/
def ev_of (x : Nat) (evs : List (Order × Int)) : Int :=
  ((evs.filter (fun ev => ev.1.order_id = x)).map Prod.snd).sum

/-- Sum of the quantities of the orders in a list. -/
def qty_sum (l : List Order) : Int := (l.map Order.quantity).sum

/-- Sum of the quantities of the orders with id `x` in a list. -/
def qty_of (x : Nat) (l : List Order) : Int := qty_sum (l.filter (fun o => o.order_id = x))

/-- Per-side storage discipline: orders of the side carry the side's name, are Limit
orders, sit under their own price, and the id index points at the level. -/
def side_wf (sd : String) (flag : Bool) (loc : Nat → Option (Int × Bool))
    (m : List Level) : Prop :=
  ∀ l ∈ m, ∀ o ∈ l.2,
    o.side = sd ∧ o.type = "LIMIT" ∧ o.price = l.1 ∧ loc o.order_id = some (l.1, flag)

/-- The invariant of reachable books, relative to the ids submitted so far. -/
structure Inv (used : List Nat) (b : OrderBook) : Prop where
  buy_sorted : (b.buy_orders.map Prod.fst).Pairwise (· > ·)
  sell_sorted : (b.sell_orders.map Prod.fst).Pairwise (· < ·)
  qty_pos : ∀ o ∈ b.resting, 0 < o.quantity
  nodup : (b.resting.map Order.order_id).Nodup
  buy_wf : side_wf "BUY" true b.order_locations b.buy_orders
  sell_wf : side_wf "SELL" false b.order_locations b.sell_orders
  loc_used : ∀ id, b.order_locations id ≠ none → id ∈ used

/-- The side an incoming order is matched against. -/
def opp_levels (b : OrderBook) (o : Order) : List Level :=
  if o.is_buy then b.sell_orders else b.buy_orders

/-- The side an incoming order would rest on. -/
def own_levels (b : OrderBook) (o : Order) : List Level :=
  if o.is_buy then b.buy_orders else b.sell_orders

/-- The `break` test of the matching walk for the incoming order `o` at a level price. -/
def stop_of (o : Order) (level_price : Int) : Bool :=
  if o.is_limit then
    if o.is_buy then decide (o.price < level_price) else decide (o.price > level_price)
  else false

/-- The fill the matchers build for a match of the incoming order `o`. -/
def fill_of (o : Order) (ev : Order × Int) : Fill :=
  if o.is_buy then create_fill o ev.1 ev.1.price ev.2
  else create_fill ev.1 o ev.1.price ev.2

/-- The matches of the incoming order `o` against the book of `e`. -/
def matches_of (e : MatchingEngine) (o : Order) : Int × List Level × List (Order × Int) :=
  sweep (stop_of o) o.quantity (opp_levels e.order_book o)

/-- Closed form of `process_order` for Limit and Market orders. -/
def settle (e : MatchingEngine) (o : Order) : List Fill × MatchingEngine :=
  let s := matches_of e o
  let fills := s.2.2.map (fill_of o)
  let book : OrderBook :=
    if o.is_buy then { e.order_book with sell_orders := s.2.1 }
    else { e.order_book with buy_orders := s.2.1 }
  let book1 : OrderBook :=
    if o.is_limit ∧ 0 < s.1 then book.add_order { o with quantity := s.1 } else book
  (fills, fills.foldl MatchingEngine.update_statistics { e with order_book := book1 })

/-- Submit a list of orders one after the other; the engine after the last one. -/
def run_orders (e : MatchingEngine) : List Order → Option MatchingEngine
  | [] => some e
  | o :: rest =>
    match e.process_order o with
    | none => none
    | some r => run_orders r.2 rest

/-- Sum of the quantities of a list of fills. -/
def fills_total (fills : List Fill) : Int := (fills.map Fill.quantity).sum

/-- The fill names the order id, as its buy order or as its sell order. -/
def Fill.names (f : Fill) (id : Nat) : Bool :=
  f.buy_order_id == id || f.sell_order_id == id

/-- Sum of the quantities of the fills that name the order id. -/
def fills_naming (id : Nat) (fills : List Fill) : Int :=
  fills_total (fills.filter (fun f => f.names id))

/-- Quantity of the resting order with the id; 0 when no such order rests. -/
def OrderBook.quantity_of (b : OrderBook) (id : Nat) : Int :=
  match b.resting.find? (fun o => o.order_id == id) with
  | some o => o.quantity
  | none => 0

/-- A small book used to instantiate the theorems: asks 10 and 5 at 100 (ids 1, 2), an ask
of 7 at 101 (id 3), and a bid of 8 at 99 (id 4). -/
def demo_orders : List Order :=
  [⟨1, 100, 10, "SELL", "LIMIT"⟩, ⟨2, 100, 5, "SELL", "LIMIT"⟩, ⟨3, 101, 7, "SELL", "LIMIT"⟩,
    ⟨4, 99, 8, "BUY", "LIMIT"⟩]

/-- The engine after the demo orders have been submitted to a fresh engine. -/
def demo_engine : MatchingEngine :=
  (run_orders MatchingEngine.init demo_orders).getD MatchingEngine.init

/-- Total quantity resting on the side opposite to `o`. -/
def opposite_quantity (b : OrderBook) (o : Order) : Int :=
  if o.is_buy then qty_sum (side_orders b.sell_orders) else qty_sum (side_orders b.buy_orders)

/-- The `TopOfBook` struct of order_book.hpp (`std::optional` fields). -/
structure TopOfBook where
  best_bid : Option Int
  best_ask : Option Int
  bid_quantity : Option Int
  ask_quantity : Option Int
deriving DecidableEq, Repr

/-- The `PriceLevel` struct of order_book.hpp. -/
structure PriceLevel where
  price : Int
  total_quantity : Int
  order_count : Int
deriving DecidableEq, Repr

def OrderBook.get_top_of_book (b : OrderBook) : TopOfBook :=
  let tob : TopOfBook :=
    { best_bid := none, best_ask := none, bid_quantity := none, ask_quantity := none }
  let tob1 : TopOfBook :=
    match b.buy_orders with
    | [] => tob
    | best :: _ =>
      { tob with best_bid := some best.1, bid_quantity := some (calculate_level_quantity best.2) }
  match b.sell_orders with
  | [] => tob1
  | best :: _ =>
    { tob1 with best_ask := some best.1, ask_quantity := some (calculate_level_quantity best.2) }

/-- The range-for of `get_bid_levels` / `get_ask_levels` over one side, with the running
`count`; it breaks at `count >= depth` and at a level whose deque is empty. -/
def collect_levels (depth : Int) : Int → List Level → List PriceLevel
  | _, [] => []
  | count, (price, orders) :: rest =>
    if count ≥ depth ∨ orders.isEmpty then []
    else
      { price := price, total_quantity := calculate_level_quantity orders,
        order_count := orders.length } :: collect_levels depth (count + 1) rest

def OrderBook.get_bid_levels (b : OrderBook) (depth : Int) : List PriceLevel :=
  collect_levels depth 0 b.buy_orders

def OrderBook.get_ask_levels (b : OrderBook) (depth : Int) : List PriceLevel :=
  collect_levels depth 0 b.sell_orders

/-- Total quantity resting in the book, both sides. -/
def OrderBook.total_quantity (b : OrderBook) : Int := qty_sum b.resting

/-- A sequence of operations leading from one engine state to another: `process_order`
calls with validated orders of ids not submitted before, `cancel_order` calls and
`modify_order` calls. The lists record the ids submitted before and after the sequence. -/
inductive Steps : List Nat → MatchingEngine → List Nat → MatchingEngine → Prop
  | refl (used : List Nat) (e : MatchingEngine) : Steps used e used e
  | process {used0 used : List Nat} {e0 e e1 : MatchingEngine} {fills : List Fill} (o : Order) :
      Steps used0 e0 used e → o.Validated → o.order_id ∉ used →
      e.process_order o = some (fills, e1) → Steps used0 e0 (o.order_id :: used) e1
  | cancel {used0 used : List Nat} {e0 e : MatchingEngine} (order_id : Nat) :
      Steps used0 e0 used e → Steps used0 e0 used (e.cancel_order order_id).2
  | modify {used0 used : List Nat} {e0 e : MatchingEngine} (order_id : Nat)
      (new_quantity : Int) :
      Steps used0 e0 used e → Steps used0 e0 used (e.modify_order order_id new_quantity).2

/-- The traded notional of a list of fills: the sum of price times quantity. -/
def fills_notional (fills : List Fill) : Int :=
  (fills.map (fun f => f.price * f.quantity)).sum

/-! ## The same code with `double` prices that can be NaN

The definitions above take prices on a totally ordered grid. A `double` can also be NaN,
and the constructor guard `price <= 0.0` lets a NaN price through. The definitions of this
section embed the constructor, `add_order` and the matchers once more with a price type
that has NaN, where every comparison with NaN is false, as for the C++ operators. On
prices that are numbers they agree with the definitions above (`process_order_toDbl`). -/

namespace Dbl

/-- A `double` price: NaN or a number. Numbers are taken on the exact grid of the
definitions above; what matters here is that every comparison with NaN is false. -/
inductive Price where
  | nan : Price
  | num (v : Int) : Price
deriving DecidableEq, Repr

/-- The C++ comparison `a < b`; false when an operand is NaN. -/
def Price.lt : Price → Price → Bool
  | .num a, .num b => decide (a < b)
  | _, _ => false

/-- The C++ comparison `a <= b`; false when an operand is NaN. -/
def Price.le : Price → Price → Bool
  | .num a, .num b => decide (a ≤ b)
  | _, _ => false

/-- The C++ comparison `a > b`; false when an operand is NaN. -/
def Price.gt (a b : Price) : Bool := Price.lt b a

/-- The sum of two doubles, exact on numbers; NaN when an operand is NaN. -/
def Price.add : Price → Price → Price
  | .num a, .num b => .num (a + b)
  | _, _ => .nan

/-- The product `price * quantity` of a double and an `int`, exact on numbers; NaN when the
price is NaN. -/
def Price.mul : Price → Int → Price
  | .num a, q => .num (a * q)
  | .nan, _ => .nan

structure Order where
  order_id : Nat
  price : Price
  quantity : Int
  side : String
  type : String
deriving DecidableEq, Repr

def Order.is_buy (o : Order) : Bool := o.side == "BUY"

def Order.is_sell (o : Order) : Bool := o.side == "SELL"

def Order.is_limit (o : Order) : Bool := o.type == "LIMIT"

def Order.is_market (o : Order) : Bool := o.type == "MARKET"

/-- The validating constructor `Order::Order(id, p, qty, s, t)`. The price guard is the
comparison `price <= 0.0`, which is false for NaN. -/
def Order.new (id : Nat) (p : Price) (qty : Int) (s t : String) : Except String Order :=
  if s ≠ "BUY" ∧ s ≠ "SELL" then .error "Order side must be \x27BUY\x27 or \x27SELL\x27"
  else if t ≠ "LIMIT" ∧ t ≠ "MARKET" then
    .error "Order type must be \x27LIMIT\x27 or \x27MARKET\x27"
  else if qty ≤ 0 then .error "Order quantity must be positive"
  else if t = "LIMIT" ∧ Price.le p (.num 0) = true then
    .error "Limit order price must be positive"
  else .ok { order_id := id, price := p, quantity := qty, side := s, type := t }

/-- An order value that the validating constructor produces. -/
def Order.Validated (o : Order) : Prop :=
  (Order.new o.order_id o.price o.quantity o.side o.type).toOption = some o

instance (o : Order) : Decidable o.Validated := by
  unfold Order.Validated; infer_instance

/-- One entry of a price map: the key and the deque of orders stored under it. -/
abbrev Level := Price × List Order

/-- Key order of `sell_orders` (`std::less<double>`). -/
def ask_before (a b : Price) : Bool := Price.lt a b

/-- Key order of `buy_orders` (`std::greater<double>`). -/
def bid_before (a b : Price) : Bool := Price.gt a b

/-- The access `m[price]` followed by the in-place edit `f` of the deque it returns.
`operator[]` looks for the first key that does not come before `price` (`lower_bound`);
if there is none, or `price` comes before that key, a new level is inserted there,
otherwise the two keys count as the same key. A NaN `price` comes before no key and no key
comes before it, so it lands on the first level of a map that has one. -/
def map_at (before : Price → Price → Bool) (price : Price) (f : List Order → List Order) :
    List Level → List Level
  | [] => [(price, f [])]
  | (k, q) :: rest =>
    if before k price then (k, q) :: map_at before price f rest
    else if before price k then (price, f []) :: (k, q) :: rest
    else (k, f q) :: rest

structure OrderBook where
  buy_orders : List Level
  sell_orders : List Level
  order_locations : Nat → Option (Price × Bool)

/-- The default-constructed book. -/
def OrderBook.init : OrderBook :=
  { buy_orders := [], sell_orders := [], order_locations := fun _ => none }

/-- The assignment `order_locations[id] = loc`. -/
def loc_assign (m : Nat → Option (Price × Bool)) (id : Nat) (loc : Price × Bool) :
    Nat → Option (Price × Bool) :=
  fun k => if k = id then some loc else m k

def OrderBook.add_order (b : OrderBook) (order : Order) : OrderBook :=
  if !order.is_limit then b
  else if order.is_buy then
    { b with
      buy_orders := map_at bid_before order.price (fun q => q ++ [order]) b.buy_orders
      order_locations := loc_assign b.order_locations order.order_id (order.price, true) }
  else
    { b with
      sell_orders := map_at ask_before order.price (fun q => q ++ [order]) b.sell_orders
      order_locations := loc_assign b.order_locations order.order_id (order.price, false) }

structure Fill where
  buy_order_id : Nat
  sell_order_id : Nat
  price : Price
  quantity : Int
deriving DecidableEq, Repr

structure MatchingEngine where
  order_book : OrderBook
  fill_count : Nat
  total_traded_volume : Price

/-- A freshly constructed engine. -/
def MatchingEngine.init : MatchingEngine :=
  { order_book := OrderBook.init, fill_count := 0, total_traded_volume := .num 0 }

def create_fill (aggressive_order passive_order : Order) (fill_price : Price)
    (fill_quantity : Int) : Fill :=
  { buy_order_id :=
      if aggressive_order.is_buy then aggressive_order.order_id else passive_order.order_id
    sell_order_id :=
      if aggressive_order.is_sell then aggressive_order.order_id else passive_order.order_id
    price := fill_price
    quantity := fill_quantity }

def determine_fill_price (_aggressive_order passive_order : Order) : Price :=
  passive_order.price

/-- The inner loop `while (!queue.empty() && remaining_order.quantity > 0)` of the four
matching branches, run with fuel. -/
def match_queue (mk : Order → Order → Int → Fill) :
    Nat → Order → List Order → Option (Order × List Order × List Fill)
  | 0, _, _ => none
  | fuel + 1, remaining_order, queue =>
    match queue with
    | [] => some (remaining_order, [], [])
    | passive_order :: rest =>
      if remaining_order.quantity > 0 then
        let fill_quantity := min remaining_order.quantity passive_order.quantity
        let fill := mk remaining_order passive_order fill_quantity
        let remaining1 : Order :=
          { remaining_order with quantity := remaining_order.quantity - fill_quantity }
        let passive1 : Order :=
          { passive_order with quantity := passive_order.quantity - fill_quantity }
        let queue1 := if passive1.quantity = 0 then rest else passive1 :: rest
        (match_queue mk fuel remaining1 queue1).map
          (fun r => (r.1, r.2.1, fill :: r.2.2))
      else some (remaining_order, queue, [])

/-- The outer loop over the levels of the opposite side; `stop remaining level_price` is
the `break` test of the branch. -/
def match_levels (stop : Order → Price → Bool) (mk : Order → Order → Int → Fill) :
    Order → List Level → Option (Order × List Level × List Fill)
  | remaining_order, [] => some (remaining_order, [], [])
  | remaining_order, (price, queue) :: rest =>
    if remaining_order.quantity > 0 then
      if stop remaining_order price then some (remaining_order, (price, queue) :: rest, [])
      else
        match match_queue mk (queue.length + 1) remaining_order queue with
        | none => none
        | some (remaining1, queue1, fills1) =>
          match match_levels stop mk remaining1 rest with
          | none => none
          | some (remaining2, rest2, fills2) =>
            some (remaining2,
              if queue1.isEmpty then rest2 else (price, queue1) :: rest2,
              fills1 ++ fills2)
    else some (remaining_order, (price, queue) :: rest, [])

def MatchingEngine.match_limit_order (e : MatchingEngine) (order : Order) :
    Option (List Fill × MatchingEngine) :=
  if order.is_buy then
    match match_levels (fun remaining ask_price => Price.lt remaining.price ask_price)
        (fun remaining passive fq =>
          create_fill remaining passive (determine_fill_price remaining passive) fq)
        order e.order_book.sell_orders with
    | none => none
    | some (remaining_order, sells, fills) =>
      let book : OrderBook := { e.order_book with sell_orders := sells }
      some (fills, { e with order_book :=
        if remaining_order.quantity > 0 then book.add_order remaining_order else book })
  else
    match match_levels (fun remaining bid_price => Price.gt remaining.price bid_price)
        (fun remaining passive fq =>
          create_fill passive remaining (determine_fill_price remaining passive) fq)
        order e.order_book.buy_orders with
    | none => none
    | some (remaining_order, buys, fills) =>
      let book : OrderBook := { e.order_book with buy_orders := buys }
      some (fills, { e with order_book :=
        if remaining_order.quantity > 0 then book.add_order remaining_order else book })

def MatchingEngine.match_market_order (e : MatchingEngine) (order : Order) :
    Option (List Fill × MatchingEngine) :=
  if order.is_buy then
    match match_levels (fun _ _ => false)
        (fun remaining passive fq => create_fill remaining passive passive.price fq)
        order e.order_book.sell_orders with
    | none => none
    | some (_, sells, fills) =>
      some (fills, { e with order_book := { e.order_book with sell_orders := sells } })
  else
    match match_levels (fun _ _ => false)
        (fun remaining passive fq => create_fill passive remaining passive.price fq)
        order e.order_book.buy_orders with
    | none => none
    | some (_, buys, fills) =>
      some (fills, { e with order_book := { e.order_book with buy_orders := buys } })

def MatchingEngine.update_statistics (e : MatchingEngine) (fill : Fill) : MatchingEngine :=
  { e with
    fill_count := e.fill_count + 1
    total_traded_volume := Price.add e.total_traded_volume (Price.mul fill.price fill.quantity) }

def MatchingEngine.process_order (e : MatchingEngine) (order : Order) :
    Option (List Fill × MatchingEngine) :=
  if order.is_limit then
    (e.match_limit_order order).map
      (fun r => (r.1, r.1.foldl MatchingEngine.update_statistics r.2))
  else if order.is_market then
    (e.match_market_order order).map
      (fun r => (r.1, r.1.foldl MatchingEngine.update_statistics r.2))
  else some ([], e)

/-- Submit a list of orders one after the other; the engine after the last one. -/
def run_orders (e : MatchingEngine) : List Order → Option MatchingEngine
  | [] => some e
  | o :: rest =>
    match e.process_order o with
    | none => none
    | some r => run_orders r.2 rest

/-- All orders stored on one side, in iteration order. -/
def side_orders (m : List Level) : List Order := (m.map Prod.snd).flatten

/-- Sum of the quantities of the orders in a list. -/
def qty_sum (l : List Order) : Int := (l.map Order.quantity).sum

/-- Sum of the quantities of a list of fills. -/
def fills_total (fills : List Fill) : Int := (fills.map Fill.quantity).sum

end Dbl

/-! ### Prices that are numbers, read as `double` prices -/

def Order.toDbl (o : Order) : Dbl.Order :=
  { order_id := o.order_id, price := .num o.price, quantity := o.quantity, side := o.side,
    type := o.type }

def Fill.toDbl (f : Fill) : Dbl.Fill :=
  { buy_order_id := f.buy_order_id, sell_order_id := f.sell_order_id, price := .num f.price,
    quantity := f.quantity }

def level_toDbl (l : Level) : Dbl.Level := (.num l.1, l.2.map Order.toDbl)

def OrderBook.toDbl (b : OrderBook) : Dbl.OrderBook :=
  { buy_orders := b.buy_orders.map level_toDbl
    sell_orders := b.sell_orders.map level_toDbl
    order_locations := fun id => (b.order_locations id).map (fun loc => (.num loc.1, loc.2)) }

def MatchingEngine.toDbl (e : MatchingEngine) : Dbl.MatchingEngine :=
  { order_book := e.order_book.toDbl, fill_count := e.fill_count,
    total_traded_volume := .num e.total_traded_volume }

/-! ## The matching loops in closed form -/

theorem match_queue_eq (mk : Order → Order → Int → Fill)
    (hmk : ∀ (o : Order) (x : Int) (p : Order) (fq : Int),
      mk { o with quantity := x } p fq = mk o p fq) :
    ∀ (fuel : Nat) (o : Order) (queue : List Order), queue.length < fuel →
      match_queue mk fuel o queue =
        some ({ o with quantity := (drain o.quantity queue).1 }, (drain o.quantity queue).2.1,
          (drain o.quantity queue).2.2.map (fun ev => mk o ev.1 ev.2)) := by
  intro fuel
  induction fuel with
  | zero => intro o queue h; simp at h
  | succ n ih =>
    intro o queue h
    cases queue with
    | nil => simp [match_queue, drain]
    | cons p rest =>
      simp only [List.length_cons, Nat.succ_lt_succ_iff] at h
      by_cases hr : 0 < o.quantity
      · by_cases hp : p.quantity ≤ o.quantity
        · have hmin : min o.quantity p.quantity = p.quantity := min_eq_right hp
          simp only [match_queue, gt_iff_lt, hr, if_true, hmin, sub_self, drain, hp]
          rw [ih _ _ (by simpa using h)]
          simp [hmk]
        · have hmin : min o.quantity p.quantity = o.quantity := min_eq_left (le_of_not_le hp)
          have hne : p.quantity - o.quantity ≠ 0 := by omega
          simp only [match_queue, gt_iff_lt, hr, if_true, hmin, sub_self, drain, hp, hne, if_false]
          obtain ⟨m, rfl⟩ : ∃ m, n = m + 1 := ⟨n - 1, by omega⟩
          simp [match_queue, drain]
      · simp [match_queue, drain, hr]

theorem match_levels_eq (stop : Order → Int → Bool) (mk : Order → Order → Int → Fill)
    (hstop : ∀ (o : Order) (x : Int) (p : Int), stop { o with quantity := x } p = stop o p)
    (hmk : ∀ (o : Order) (x : Int) (p : Order) (fq : Int),
      mk { o with quantity := x } p fq = mk o p fq) :
    ∀ (levels : List Level) (o : Order),
      match_levels stop mk o levels =
        some ({ o with quantity := (sweep (stop o) o.quantity levels).1 },
          (sweep (stop o) o.quantity levels).2.1,
          (sweep (stop o) o.quantity levels).2.2.map (fun ev => mk o ev.1 ev.2)) := by
  intro levels
  induction levels with
  | nil => intro o; simp [match_levels, sweep]
  | cons l rest ih =>
    intro o
    obtain ⟨price, queue⟩ := l
    by_cases hr : 0 < o.quantity
    · by_cases hs : stop o price = true
      · simp [match_levels, sweep, hr, hs]
      · have hs1 : stop o price = false := by simpa using hs
        have hstop1 : ∀ x, stop { o with quantity := x } = stop o := fun x => funext (hstop o x)
        have hmk1 : ∀ x, mk { o with quantity := x } = mk o :=
          fun x => funext fun p => funext fun fq => hmk o x p fq
        simp only [match_levels, gt_iff_lt, hr, if_true, hs1, sweep,
          match_queue_eq mk hmk (queue.length + 1) o queue (Nat.lt_succ_self _), ih, hstop1, hmk1]
        simp
    · simp [match_levels, sweep, hr]

theorem drain_nonpos (r : Int) (l : List Order) (h : r ≤ 0) : drain r l = (r, l, []) := by
  cases l with
  | nil => rfl
  | cons p rest => simp [drain, not_lt.mpr h]

theorem drain_exit : ∀ (l : List Order) (r : Int), (drain r l).2.1 ≠ [] → (drain r l).1 ≤ 0 := by
  intro l
  induction l with
  | nil => intro r h; simp [drain] at h
  | cons p rest ih =>
    intro r h
    by_cases hr : 0 < r
    · by_cases hp : p.quantity ≤ r
      · simp only [drain, hr, hp, if_true] at h ⊢
        exact ih _ h
      · simp [drain, hr, hp]
    · simp only [drain, hr, if_false]
      omega

theorem drain_left : ∀ (l : List Order) (r : Int),
    (drain r l).1 = r - ev_total (drain r l).2.2 := by
  intro l
  induction l with
  | nil => intro r; simp [drain, ev_total]
  | cons p rest ih =>
    intro r
    by_cases hr : 0 < r
    · by_cases hp : p.quantity ≤ r
      · simp only [drain, hr, hp, if_true]
        rw [ih]
        simp only [ev_total, List.map_cons, List.sum_cons]
        ring
      · simp [drain, hr, hp, ev_total]
    · simp [drain, hr, ev_total]

theorem drain_ev_pos : ∀ (l : List Order) (r : Int), (∀ o ∈ l, 0 < o.quantity) →
    ∀ ev ∈ (drain r l).2.2, 0 < ev.2 ∧ ev.2 ≤ ev.1.quantity ∧ ev.1 ∈ l := by
  intro l
  induction l with
  | nil => intro r _ ev h; simp [drain] at h
  | cons p rest ih =>
    intro r hpos ev h
    by_cases hr : 0 < r
    · by_cases hp : p.quantity ≤ r
      · simp only [drain, hr, hp, if_true, List.mem_cons] at h
        rcases h with h | h
        · subst h
          exact ⟨hpos p (List.mem_cons_self _ _), le_refl _, List.mem_cons_self _ _⟩
        · have := ih _ (fun o ho => hpos o (List.mem_cons_of_mem _ ho)) ev h
          exact ⟨this.1, this.2.1, List.mem_cons_of_mem _ this.2.2⟩
      · simp only [drain, hr, hp, if_true, if_false, List.mem_singleton] at h
        subst h
        exact ⟨hr, by simp; omega, List.mem_cons_self _ _⟩
    · simp [drain, hr] at h

theorem drain_ev_mem : ∀ (l : List Order) (r : Int),
    ∀ ev ∈ (drain r l).2.2, ev.1 ∈ l := by
  intro l
  induction l with
  | nil => intro r ev h; simp [drain] at h
  | cons p rest ih =>
    intro r ev h
    by_cases hr : 0 < r
    · by_cases hp : p.quantity ≤ r
      · simp only [drain, hr, hp, if_true, List.mem_cons] at h
        rcases h with h | h
        · subst h; exact List.mem_cons_self _ _
        · exact List.mem_cons_of_mem _ (ih _ ev h)
      · simp only [drain, hr, hp, if_true, if_false, List.mem_singleton] at h
        subst h; exact List.mem_cons_self _ _
    · simp [drain, hr] at h

theorem qty_sum_nonneg (l : List Order) (h : ∀ o ∈ l, 0 < o.quantity) : 0 ≤ qty_sum l := by
  induction l with
  | nil => simp [qty_sum]
  | cons p rest ih =>
    have h1 := h p (List.mem_cons_self _ _)
    have h2 := ih (fun o ho => h o (List.mem_cons_of_mem _ ho))
    simp only [qty_sum, List.map_cons, List.sum_cons] at h2 ⊢
    omega

theorem drain_total : ∀ (l : List Order) (r : Int), (∀ o ∈ l, 0 < o.quantity) → 0 ≤ r →
    ev_total (drain r l).2.2 = min r (qty_sum l) := by
  intro l
  induction l with
  | nil => intro r _ h0; simp [drain, ev_total, qty_sum, h0]
  | cons p rest ih =>
    intro r hpos h0
    have hp0 := hpos p (List.mem_cons_self _ _)
    have hrest : ∀ o ∈ rest, 0 < o.quantity := fun o ho => hpos o (List.mem_cons_of_mem _ ho)
    have hs := qty_sum_nonneg rest hrest
    by_cases hr : 0 < r
    · by_cases hp : p.quantity ≤ r
      · have := ih (r - p.quantity) hrest (by omega)
        simp only [drain, hr, hp, if_true, ev_total, List.map_cons, List.sum_cons, qty_sum]
          at this ⊢
        rw [this]
        omega
      · simp only [drain, hr, hp, if_true, if_false, ev_total, List.map_cons, List.sum_cons,
          qty_sum, List.map_nil, List.sum_nil] at hs ⊢
        omega
    · have : r = 0 := by omega
      subst this
      simp only [drain, lt_irrefl, if_false, ev_total, List.map_nil, List.sum_nil, qty_sum,
        List.map_cons, List.sum_cons] at hs ⊢
      omega

theorem drain_conserve (x : Nat) : ∀ (l : List Order) (r : Int),
    ev_of x (drain r l).2.2 + qty_of x (drain r l).2.1 = qty_of x l := by
  intro l
  induction l with
  | nil => intro r; simp [drain, ev_of, qty_of, qty_sum]
  | cons p rest ih =>
    intro r
    by_cases hr : 0 < r
    · by_cases hp : p.quantity ≤ r
      · have := ih (r - p.quantity)
        simp only [drain, hr, hp, if_true]
        by_cases hx : p.order_id = x
        · simp only [ev_of, qty_of, qty_sum, List.filter_cons, hx, decide_True, if_true,
            List.map_cons, List.sum_cons] at this ⊢
          omega
        · simp only [ev_of, qty_of, qty_sum, List.filter_cons, hx, decide_False,
            List.map_cons, List.sum_cons] at this ⊢
          simpa using this
      · simp only [drain, hr, hp, if_true, if_false]
        by_cases hx : p.order_id = x
        · simp only [ev_of, qty_of, qty_sum, List.filter_cons, hx, decide_True, if_true,
            List.map_cons, List.sum_cons, List.filter_nil, List.map_nil, List.sum_nil]
          ring
        · simp [ev_of, qty_of, qty_sum, List.filter_cons, hx]
    · simp [drain, hr, ev_of]

theorem drain_rest : ∀ (l : List Order) (r : Int), ∀ o1 ∈ (drain r l).2.1,
    ∃ o ∈ l, o1.same_but_quantity o ∧ (0 < o.quantity → 0 < o1.quantity) := by
  intro l
  induction l with
  | nil => intro r o1 h; simp [drain] at h
  | cons p rest ih =>
    intro r o1 h
    by_cases hr : 0 < r
    · by_cases hp : p.quantity ≤ r
      · simp only [drain, hr, hp, if_true] at h
        obtain ⟨o, ho, h1⟩ := ih _ o1 h
        exact ⟨o, List.mem_cons_of_mem _ ho, h1⟩
      · simp only [drain, hr, hp, if_true, if_false, List.mem_cons] at h
        rcases h with h | h
        · subst h
          refine ⟨p, List.mem_cons_self _ _, ⟨rfl, rfl, rfl, rfl⟩, fun _ => ?_⟩
          show 0 < p.quantity - r
          omega
        · exact ⟨o1, List.mem_cons_of_mem _ h, ⟨rfl, rfl, rfl, rfl⟩, fun h => h⟩
    · simp only [drain, hr, if_false] at h
      exact ⟨o1, h, ⟨rfl, rfl, rfl, rfl⟩, fun h => h⟩

theorem drain_ids : ∀ (l : List Order) (r : Int),
    ((drain r l).2.1.map Order.order_id).Sublist (l.map Order.order_id) := by
  intro l
  induction l with
  | nil => intro r; simp [drain]
  | cons p rest ih =>
    intro r
    by_cases hr : 0 < r
    · by_cases hp : p.quantity ≤ r
      · simp only [drain, hr, hp, if_true, List.map_cons]
        exact List.Sublist.cons _ (ih _)
      · simp [drain, hr, hp]
    · simp [drain, hr]

theorem drain_append : ∀ (a b : List Order) (r : Int),
    drain r (a ++ b) =
      if (drain r a).2.1 = [] then
        ((drain (drain r a).1 b).1, (drain (drain r a).1 b).2.1,
          (drain r a).2.2 ++ (drain (drain r a).1 b).2.2)
      else ((drain r a).1, (drain r a).2.1 ++ b, (drain r a).2.2) := by
  intro a
  induction a with
  | nil => intro b r; simp [drain]
  | cons p rest ih =>
    intro b r
    by_cases hr : 0 < r
    · by_cases hp : p.quantity ≤ r
      · have h := ih b (r - p.quantity)
        rw [List.cons_append]
        simp only [drain, hr, hp, if_true]
        rw [h]
        split <;> simp
      · simp [drain, hr, hp]
    · simp [drain, hr]

/-- FIFO core: when the order `B` of the deque is matched, the matches start with one full
match for every order ahead of `B`, and nothing ahead of `B` is left in the deque. -/
theorem drain_fifo (B : Order) (post : List Order) : ∀ (pre : List Order) (r : Int),
    (∀ o ∈ pre, o.order_id ≠ B.order_id) →
    (∃ ev ∈ (drain r (pre ++ B :: post)).2.2, ev.1.order_id = B.order_id) →
    (∃ evs, (drain r (pre ++ B :: post)).2.2 = pre.map (fun o => (o, o.quantity)) ++ evs ∧
      (∀ ev ∈ evs, ev.1 ∈ B :: post)) ∧
    (∀ o1 ∈ (drain r (pre ++ B :: post)).2.1,
      o1.order_id ∈ (B :: post).map Order.order_id) := by
  intro pre
  induction pre with
  | nil =>
    intro r _ _
    refine ⟨⟨(drain r (B :: post)).2.2, by simp, fun ev hev => drain_ev_mem _ _ ev hev⟩,
      fun o1 ho1 => ?_⟩
    exact (drain_ids _ r).subset (List.mem_map_of_mem _ ho1)
  | cons p rest ih =>
    intro r hne hex
    have hpB : p.order_id ≠ B.order_id := hne p (List.mem_cons_self _ _)
    have hrest : ∀ o ∈ rest, o.order_id ≠ B.order_id :=
      fun o ho => hne o (List.mem_cons_of_mem _ ho)
    obtain ⟨ev, hev, hevB⟩ := hex
    rw [List.cons_append] at hev ⊢
    by_cases hr : 0 < r
    · by_cases hp : p.quantity ≤ r
      · simp only [drain, hr, hp, if_true] at hev ⊢
        rcases List.mem_cons.mp hev with h | h
        · subst h; exact absurd hevB hpB
        · obtain ⟨⟨evs, h1, h2⟩, h3⟩ := ih _ hrest ⟨ev, h, hevB⟩
          refine ⟨⟨evs, ?_, h2⟩, ?_⟩
          · rw [h1]; simp
          · exact h3
      · simp only [drain, hr, hp, if_true, if_false, List.mem_singleton] at hev
        subst hev; exact absurd hevB hpB
    · simp [drain, hr] at hev

@[simp] theorem side_orders_nil : side_orders [] = [] := rfl

@[simp] theorem side_orders_cons (l : Level) (rest : List Level) :
    side_orders (l :: rest) = l.2 ++ side_orders rest := by
  simp [side_orders]

@[simp] theorem side_orders_append (a b : List Level) :
    side_orders (a ++ b) = side_orders a ++ side_orders b := by
  simp [side_orders]

theorem mem_side_orders {o : Order} {m : List Level} :
    o ∈ side_orders m ↔ ∃ l ∈ m, o ∈ l.2 := by
  simp only [side_orders, List.mem_flatten, List.mem_map]
  constructor
  · rintro ⟨q, ⟨l, hl, rfl⟩, ho⟩; exact ⟨l, hl, ho⟩
  · rintro ⟨l, hl, ho⟩; exact ⟨l.2, ⟨l, hl, rfl⟩, ho⟩

theorem sweep_nonpos (stop : Int → Bool) (r : Int) (m : List Level) (h : r ≤ 0) :
    sweep stop r m = (r, m, []) := by
  cases m with
  | nil => rfl
  | cons l rest => obtain ⟨p, q⟩ := l; simp [sweep, not_lt.mpr h]

/-- The outer loop is the inner loop run over the concatenated deques of the levels in
front of the first level at which the walk stops. -/
theorem sweep_flat (stop : Int → Bool) : ∀ (m : List Level) (r : Int),
    (sweep stop r m).1 = (drain r (side_orders (m.takeWhile (fun l => !stop l.1)))).1 ∧
    (sweep stop r m).2.2 = (drain r (side_orders (m.takeWhile (fun l => !stop l.1)))).2.2 ∧
    side_orders (sweep stop r m).2.1 =
      (drain r (side_orders (m.takeWhile (fun l => !stop l.1)))).2.1 ++
        side_orders (m.dropWhile (fun l => !stop l.1)) := by
  intro m
  induction m with
  | nil => intro r; simp [sweep, drain]
  | cons l rest ih =>
    intro r
    obtain ⟨p, q⟩ := l
    by_cases hr : 0 < r
    · by_cases hs : stop p = true
      · simp [sweep, hr, hs, drain]
      · have hs1 : stop p = false := by simpa using hs
        obtain ⟨h1, h2, h3⟩ := ih (drain r q).1
        simp only [sweep, hr, if_true, hs1, Bool.false_eq_true, if_false, List.takeWhile_cons, List.dropWhile_cons,
          Bool.not_false, side_orders_cons, drain_append]
        by_cases hq : (drain r q).2.1 = []
        · simp [hq, h1, h2, h3]
        · have hle := drain_exit q r hq
          simp only [hq, if_false, sweep_nonpos stop _ rest hle]
          have hemp : (drain r q).2.1.isEmpty = false := by
            cases hq1 : (drain r q).2.1 with
            | nil => exact absurd hq1 hq
            | cons a b => rfl
          simp only [hemp, side_orders_cons, List.append_nil]
          refine ⟨trivial, trivial, ?_⟩
          simp only [Bool.false_eq_true, if_false, side_orders_cons, List.append_assoc,
            List.append_cancel_left_eq]
          rw [← side_orders_append, List.takeWhile_append_dropWhile]
    · have hle : r ≤ 0 := not_lt.mp hr
      rw [sweep_nonpos stop r _ hle, drain_nonpos r _ hle]
      refine ⟨rfl, rfl, ?_⟩
      show side_orders ((p, q) :: rest) = _
      rw [← side_orders_append, List.takeWhile_append_dropWhile]

theorem sweep_keys (stop : Int → Bool) : ∀ (m : List Level) (r : Int),
    ((sweep stop r m).2.1.map Prod.fst).Sublist (m.map Prod.fst) := by
  intro m
  induction m with
  | nil => intro r; simp [sweep]
  | cons l rest ih =>
    intro r
    obtain ⟨p, q⟩ := l
    by_cases hr : 0 < r
    · by_cases hs : stop p = true
      · simp [sweep, hr, hs]
      · have hs1 : stop p = false := by simpa using hs
        simp only [sweep, hr, if_true, hs1, Bool.false_eq_true, if_false, List.map_cons]
        split
        · exact List.Sublist.cons _ (ih _)
        · exact List.Sublist.cons₂ _ (ih _)
    · simp [sweep, hr]

theorem sweep_levels (stop : Int → Bool) : ∀ (m : List Level) (r : Int),
    ∀ l1 ∈ (sweep stop r m).2.1, ∃ l ∈ m, l1.1 = l.1 ∧
      ∀ o1 ∈ l1.2, ∃ o ∈ l.2, o1.same_but_quantity o ∧ (0 < o.quantity → 0 < o1.quantity) := by
  intro m
  induction m with
  | nil => intro r l1 h; simp [sweep] at h
  | cons l rest ih =>
    intro r l1 h
    obtain ⟨p, q⟩ := l
    have hself : ∀ l1 ∈ (p, q) :: rest, ∃ l ∈ (p, q) :: rest, l1.1 = l.1 ∧
        ∀ o1 ∈ l1.2, ∃ o ∈ l.2, o1.same_but_quantity o ∧
          (0 < o.quantity → 0 < o1.quantity) :=
      fun l1 h1 => ⟨l1, h1, rfl, fun o1 ho1 => ⟨o1, ho1, ⟨rfl, rfl, rfl, rfl⟩, fun h => h⟩⟩
    by_cases hr : 0 < r
    · by_cases hs : stop p = true
      · simp only [sweep, hr, hs, if_true] at h
        exact hself l1 h
      · have hs1 : stop p = false := by simpa using hs
        simp only [sweep, hr, if_true, hs1, Bool.false_eq_true, if_false] at h
        have hrest : l1 ∈ (sweep stop (drain r q).1 rest).2.1 →
            ∃ l ∈ (p, q) :: rest, l1.1 = l.1 ∧ ∀ o1 ∈ l1.2, ∃ o ∈ l.2,
              o1.same_but_quantity o ∧ (0 < o.quantity → 0 < o1.quantity) := by
          intro h1
          obtain ⟨l, hl, h2⟩ := ih _ l1 h1
          exact ⟨l, List.mem_cons_of_mem _ hl, h2⟩
        split at h
        · exact hrest h
        · rcases List.mem_cons.mp h with h1 | h1
          · subst h1
            exact ⟨(p, q), List.mem_cons_self _ _, rfl, fun o1 ho1 => drain_rest q r o1 ho1⟩
          · exact hrest h1
    · simp only [sweep, hr, if_false] at h
      exact hself l1 h

/-- When quantity is left after the walk, the walk erased every level up to the first one
at which it stopped. -/
theorem sweep_left_pos (stop : Int → Bool) : ∀ (m : List Level) (r : Int),
    0 < (sweep stop r m).1 → (sweep stop r m).2.1 = m.dropWhile (fun l => !stop l.1) := by
  intro m
  induction m with
  | nil => intro r _; simp [sweep]
  | cons l rest ih =>
    intro r h
    obtain ⟨p, q⟩ := l
    by_cases hr : 0 < r
    · by_cases hs : stop p = true
      · simp [sweep, hr, hs]
      · have hs1 : stop p = false := by simpa using hs
        simp only [sweep, hr, if_true, hs1, Bool.false_eq_true, if_false] at h ⊢
        have h1 : 0 < (drain r q).1 := by
          by_contra hc
          rw [sweep_nonpos stop _ rest (not_lt.mp hc)] at h
          exact hc h
        have hq : (drain r q).2.1 = [] := by
          by_contra hc
          exact absurd (drain_exit q r hc) (not_le.mpr h1)
        simp [hq, hs1, ih _ h]
    · rw [sweep_nonpos stop r _ (not_lt.mp hr)] at h
      exact absurd h hr

theorem sweep_ids (stop : Int → Bool) (m : List Level) (r : Int) :
    ((side_orders (sweep stop r m).2.1).map Order.order_id).Sublist
      ((side_orders m).map Order.order_id) := by
  obtain ⟨-, -, h3⟩ := sweep_flat stop m r
  rw [h3]
  conv_rhs => rw [← List.takeWhile_append_dropWhile (fun l => !stop l.1) m]
  rw [side_orders_append, List.map_append, List.map_append]
  exact List.Sublist.append (drain_ids _ _) (List.Sublist.refl _)

theorem sweep_qty_pos (stop : Int → Bool) (m : List Level) (r : Int)
    (h : ∀ o ∈ side_orders m, 0 < o.quantity) :
    ∀ o ∈ side_orders (sweep stop r m).2.1, 0 < o.quantity := by
  intro o1 ho1
  obtain ⟨l1, hl1, ho1⟩ := mem_side_orders.mp ho1
  obtain ⟨l, hl, -, h2⟩ := sweep_levels stop m r l1 hl1
  obtain ⟨o, ho, -, h3⟩ := h2 o1 ho1
  exact h3 (h o (mem_side_orders.mpr ⟨l, hl, ho⟩))

theorem sweep_side_wf (stop : Int → Bool) (m : List Level) (r : Int) (sd : String)
    (flag : Bool) (loc : Nat → Option (Int × Bool)) (h : side_wf sd flag loc m) :
    side_wf sd flag loc (sweep stop r m).2.1 := by
  intro l1 hl1 o1 ho1
  obtain ⟨l, hl, h1, h2⟩ := sweep_levels stop m r l1 hl1
  obtain ⟨o, ho, ⟨e1, e2, e3, e4⟩, -⟩ := h2 o1 ho1
  obtain ⟨a, b, c, d⟩ := h l hl o ho
  rw [e1, e2, e3, e4, h1]
  exact ⟨a, b, c, d⟩

theorem map_at_decomp (before : Int → Int → Bool) (p : Int) (f : List Order → List Order) :
    ∀ m : List Level, ∃ pre post q,
      map_at before p f m = pre ++ (p, f q) :: post ∧
      (m = pre ++ (p, q) :: post ∨ (q = [] ∧ m = pre ++ post)) := by
  intro m
  induction m with
  | nil => exact ⟨[], [], [], rfl, Or.inr ⟨rfl, rfl⟩⟩
  | cons l rest ih =>
    obtain ⟨k, q0⟩ := l
    by_cases hk : k = p
    · subst hk
      exact ⟨[], rest, q0, by simp [map_at], Or.inl rfl⟩
    · by_cases hb : before p k = true
      · exact ⟨[], (k, q0) :: rest, [], by simp [map_at, hk, hb], Or.inr ⟨rfl, rfl⟩⟩
      · obtain ⟨pre, post, q, h1, h2⟩ := ih
        refine ⟨(k, q0) :: pre, post, q, by simp [map_at, hk, hb, h1], ?_⟩
        rcases h2 with h2 | ⟨h2, h3⟩
        · exact Or.inl (by rw [h2]; rfl)
        · exact Or.inr ⟨h2, by rw [h3]; rfl⟩

theorem map_at_keys (before : Int → Int → Bool) (p : Int) (f : List Order → List Order)
    (m : List Level) : ∀ k ∈ (map_at before p f m).map Prod.fst, k = p ∨ k ∈ m.map Prod.fst := by
  intro k hk
  obtain ⟨pre, post, q, h1, h2⟩ := map_at_decomp before p f m
  rw [h1] at hk
  simp only [List.map_append, List.map_cons, List.mem_append, List.mem_cons] at hk
  rcases h2 with h2 | ⟨-, h2⟩ <;> rw [h2] <;>
    simp only [List.map_append, List.map_cons, List.mem_append, List.mem_cons] <;> tauto

theorem map_at_sorted (before : Int → Int → Bool) (R : Int → Int → Prop)
    (hb : ∀ a b, before a b = true → R a b)
    (htri : ∀ a b, a ≠ b → before a b = false → R b a)
    (htrans : ∀ a b c, R a b → R b c → R a c)
    (p : Int) (f : List Order → List Order) :
    ∀ m : List Level, (m.map Prod.fst).Pairwise R →
      ((map_at before p f m).map Prod.fst).Pairwise R := by
  intro m
  induction m with
  | nil => intro _; simp [map_at]
  | cons l rest ih =>
    intro h
    obtain ⟨k, q0⟩ := l
    simp only [List.map_cons, List.pairwise_cons] at h
    by_cases hk : k = p
    · simp only [map_at, hk, if_true, List.map_cons, List.pairwise_cons]
      rw [← hk]; exact h
    · by_cases hbf : before p k = true
      · simp only [map_at, hk, if_false, hbf, if_true, List.map_cons, List.pairwise_cons]
        refine ⟨?_, h⟩
        intro k1 hk1
        rcases List.mem_cons.mp hk1 with h1 | h1
        · rw [h1]; exact hb _ _ hbf
        · exact htrans _ _ _ (hb _ _ hbf) (h.1 k1 h1)
      · have hbf1 : before p k = false := by simpa using hbf
        simp only [map_at, hk, if_false, hbf1, Bool.false_eq_true, List.map_cons,
          List.pairwise_cons]
        refine ⟨?_, ih h.2⟩
        intro k1 hk1
        rcases map_at_keys before p f rest k1 hk1 with h1 | h1
        · rw [h1]; exact htri _ _ (fun e => hk e.symm) hbf1
        · exact h.1 k1 h1

theorem map_at_sorted_ask (p : Int) (f : List Order → List Order) (m : List Level)
    (h : (m.map Prod.fst).Pairwise (· < ·)) :
    ((map_at ask_before p f m).map Prod.fst).Pairwise (· < ·) :=
  map_at_sorted ask_before (· < ·) (fun a b h => by simpa [ask_before] using h)
    (fun a b hne h => by
      have : ¬ a < b := by simpa [ask_before] using h
      omega)
    (fun a b c h1 h2 => lt_trans h1 h2) p f m h

theorem map_at_sorted_bid (p : Int) (f : List Order → List Order) (m : List Level)
    (h : (m.map Prod.fst).Pairwise (· > ·)) :
    ((map_at bid_before p f m).map Prod.fst).Pairwise (· > ·) :=
  map_at_sorted bid_before (· > ·) (fun a b h => by simpa [bid_before] using h)
    (fun a b hne h => by
      have : ¬ a > b := by simpa [bid_before] using h
      show b > a
      omega)
    (fun a b c h1 h2 => gt_trans h1 h2) p f m h

theorem side_wf_loc {sd : String} {flag : Bool} {loc : Nat → Option (Int × Bool)}
    {m : List Level} (h : side_wf sd flag loc m) {o : Order} (ho : o ∈ side_orders m) :
    loc o.order_id ≠ none := by
  obtain ⟨l, hl, hol⟩ := mem_side_orders.mp ho
  rw [(h l hl o hol).2.2.2]; simp

theorem Inv.id_used {used : List Nat} {b : OrderBook} (h : Inv used b) {o : Order}
    (ho : o ∈ b.resting) : o.order_id ∈ used := by
  rcases List.mem_append.mp ho with h1 | h1
  · exact h.loc_used _ (side_wf_loc h.buy_wf h1)
  · exact h.loc_used _ (side_wf_loc h.sell_wf h1)

theorem Inv.mono {used : List Nat} {b : OrderBook} (h : Inv used b) (x : Nat) :
    Inv (x :: used) b :=
  { h with loc_used := fun id hid => List.mem_cons_of_mem _ (h.loc_used id hid) }

theorem Inv.sweep_sell {used : List Nat} {b : OrderBook} (h : Inv used b)
    (stop : Int → Bool) (r : Int) :
    Inv used { b with sell_orders := (sweep stop r b.sell_orders).2.1 } where
  buy_sorted := h.buy_sorted
  sell_sorted := h.sell_sorted.sublist (sweep_keys stop _ r)
  qty_pos := by
    intro o ho
    rcases List.mem_append.mp ho with h1 | h1
    · exact h.qty_pos o (List.mem_append_left _ h1)
    · exact sweep_qty_pos stop _ r (fun o ho => h.qty_pos o (List.mem_append_right _ ho)) o h1
  nodup := by
    refine h.nodup.sublist ?_
    simp only [OrderBook.resting, List.map_append]
    exact List.Sublist.append (List.Sublist.refl _) (sweep_ids stop _ r)
  buy_wf := h.buy_wf
  sell_wf := sweep_side_wf stop _ r _ _ _ h.sell_wf
  loc_used := h.loc_used

theorem Inv.sweep_buy {used : List Nat} {b : OrderBook} (h : Inv used b)
    (stop : Int → Bool) (r : Int) :
    Inv used { b with buy_orders := (sweep stop r b.buy_orders).2.1 } where
  buy_sorted := h.buy_sorted.sublist (sweep_keys stop _ r)
  sell_sorted := h.sell_sorted
  qty_pos := by
    intro o ho
    rcases List.mem_append.mp ho with h1 | h1
    · exact sweep_qty_pos stop _ r (fun o ho => h.qty_pos o (List.mem_append_left _ ho)) o h1
    · exact h.qty_pos o (List.mem_append_right _ h1)
  nodup := by
    refine h.nodup.sublist ?_
    simp only [OrderBook.resting, List.map_append]
    exact List.Sublist.append (sweep_ids stop _ r) (List.Sublist.refl _)
  buy_wf := sweep_side_wf stop _ r _ _ _ h.buy_wf
  sell_wf := h.sell_wf
  loc_used := h.loc_used

/-- The orders of a side before and after `map_at`, around the edited deque. -/
theorem map_at_orders (before : Int → Int → Bool) (p : Int) (f : List Order → List Order)
    (m : List Level) : ∃ A q B,
      side_orders (map_at before p f m) = A ++ f q ++ B ∧ side_orders m = A ++ q ++ B ∧
      ((p, q) ∈ m ∨ q = []) := by
  obtain ⟨pre, post, q, h1, h2⟩ := map_at_decomp before p f m
  refine ⟨side_orders pre, q, side_orders post, ?_, ?_, ?_⟩
  · rw [h1]; simp
  · rcases h2 with h2 | ⟨h2, h3⟩
    · rw [h2]; simp
    · rw [h3, h2]; simp
  · rcases h2 with h2 | ⟨h2, -⟩
    · left; rw [h2]; simp
    · right; exact h2

theorem map_at_mem (before : Int → Int → Bool) (p : Int) (f : List Order → List Order)
    (m : List Level) : ∀ l ∈ map_at before p f m,
      l ∈ m ∨ ∃ q, l = (p, f q) ∧ ((p, q) ∈ m ∨ q = []) := by
  intro l hl
  obtain ⟨pre, post, q, h1, h2⟩ := map_at_decomp before p f m
  rw [h1] at hl
  rcases List.mem_append.mp hl with h | h
  · left
    rcases h2 with h2 | ⟨-, h2⟩ <;> rw [h2] <;> exact List.mem_append_left _ h
  · rcases List.mem_cons.mp h with h | h
    · right
      refine ⟨q, h, ?_⟩
      rcases h2 with h2 | ⟨h2, -⟩
      · left; rw [h2]; simp
      · right; exact h2
    · left
      rcases h2 with h2 | ⟨-, h2⟩ <;> rw [h2]
      · exact List.mem_append_right _ (List.mem_cons_of_mem _ h)
      · exact List.mem_append_right _ h

theorem side_wf_map_at {sd : String} {flag : Bool} {loc loc1 : Nat → Option (Int × Bool)}
    {m : List Level} (h : side_wf sd flag loc m) (before : Int → Int → Bool) (p : Int)
    (f : List Order → List Order)
    (hold : ∀ l ∈ m, ∀ o ∈ l.2, loc1 o.order_id = loc o.order_id)
    (hnew : ∀ q, ((p, q) ∈ m ∨ q = []) → ∀ o ∈ f q,
      o.side = sd ∧ o.type = "LIMIT" ∧ o.price = p ∧ loc1 o.order_id = some (p, flag)) :
    side_wf sd flag loc1 (map_at before p f m) := by
  intro l hl o ho
  rcases map_at_mem before p f m l hl with h1 | ⟨q, h1, h2⟩
  · obtain ⟨a, b, c, d⟩ := h l h1 o ho
    exact ⟨a, b, c, by rw [hold l h1 o ho]; exact d⟩
  · subst h1
    exact hnew q h2 o ho

theorem side_wf_loc_congr {sd : String} {flag : Bool} {loc loc1 : Nat → Option (Int × Bool)}
    {m : List Level} (h : side_wf sd flag loc m)
    (hold : ∀ l ∈ m, ∀ o ∈ l.2, loc1 o.order_id = loc o.order_id) :
    side_wf sd flag loc1 m := by
  intro l hl o ho
  obtain ⟨a, b, c, d⟩ := h l hl o ho
  exact ⟨a, b, c, by rw [hold l hl o ho]; exact d⟩

theorem map_at_push_perm (before : Int → Int → Bool) (p : Int) (o : Order) (m : List Level) :
    (side_orders (map_at before p (fun q => q ++ [o]) m)).Perm (o :: side_orders m) := by
  obtain ⟨A, q, B, h1, h2, -⟩ := map_at_orders before p (fun q => q ++ [o]) m
  rw [h1, h2]
  simp only [List.append_assoc, List.singleton_append]
  have : (A ++ (q ++ o :: B)).Perm (o :: (A ++ (q ++ B))) := by
    rw [← List.append_assoc, ← List.append_assoc]
    exact List.perm_middle
  exact this

theorem loc_assign_ne (m : Nat → Option (Int × Bool)) (id : Nat) (loc : Int × Bool)
    (k : Nat) (h : k ≠ id) : loc_assign m id loc k = m k := by
  simp [loc_assign, h]

theorem loc_assign_self (m : Nat → Option (Int × Bool)) (id : Nat) (loc : Int × Bool) :
    loc_assign m id loc id = some loc := by
  simp [loc_assign]

theorem side_wf_push {sd : String} {flag : Bool} {loc : Nat → Option (Int × Bool)}
    {m : List Level} (h : side_wf sd flag loc m) (before : Int → Int → Bool) (o : Order)
    (hs : o.side = sd) (ht : o.type = "LIMIT")
    (hfresh : ∀ o1 ∈ side_orders m, o1.order_id ≠ o.order_id) :
    side_wf sd flag (loc_assign loc o.order_id (o.price, flag))
      (map_at before o.price (fun q => q ++ [o]) m) := by
  have hold : ∀ l ∈ m, ∀ o1 ∈ l.2,
      loc_assign loc o.order_id (o.price, flag) o1.order_id = loc o1.order_id :=
    fun l hl o1 ho1 => loc_assign_ne _ _ _ _ (hfresh o1 (mem_side_orders.mpr ⟨l, hl, ho1⟩))
  refine side_wf_map_at h before o.price _ hold ?_
  intro q hq o1 ho1
  rcases List.mem_append.mp ho1 with h1 | h1
  · rcases hq with hq | hq
    · obtain ⟨a, b, c, d⟩ := h _ hq o1 h1
      exact ⟨a, b, c, by rw [hold _ hq o1 h1]; exact d⟩
    · subst hq; simp at h1
  · have : o1 = o := by simpa using h1
    subst this
    exact ⟨hs, ht, rfl, loc_assign_self _ _ _⟩

theorem Inv.add_order {used : List Nat} {b : OrderBook} (h : Inv used b) (o : Order)
    (ht : o.type = "LIMIT") (hs : o.side = "BUY" ∨ o.side = "SELL") (hq : 0 < o.quantity)
    (hfresh : o.order_id ∉ used) : Inv (o.order_id :: used) (b.add_order o) := by
  have hne : ∀ o1 ∈ b.resting, o1.order_id ≠ o.order_id :=
    fun o1 ho1 e => hfresh (e ▸ h.id_used ho1)
  have hlim : o.is_limit = true := by simp [Order.is_limit, ht]
  have hlu : ∀ (loc : Int × Bool) (id : Nat),
      loc_assign b.order_locations o.order_id loc id ≠ none → id ∈ o.order_id :: used := by
    intro loc id hid
    by_cases e : id = o.order_id
    · rw [e]; exact List.mem_cons_self _ _
    · rw [loc_assign_ne _ _ _ _ e] at hid
      exact List.mem_cons_of_mem _ (h.loc_used id hid)
  rcases hs with hs | hs
  · have hbuy : o.is_buy = true := by simp [Order.is_buy, hs]
    simp only [OrderBook.add_order, hlim, hbuy, Bool.not_true, Bool.false_eq_true, if_false,
      if_true]
    have hperm := map_at_push_perm bid_before o.price o b.buy_orders
    exact {
      buy_sorted := map_at_sorted_bid _ _ _ h.buy_sorted
      sell_sorted := h.sell_sorted
      qty_pos := by
        intro o1 ho1
        rcases List.mem_append.mp ho1 with h1 | h1
        · rcases List.mem_cons.mp (hperm.subset h1) with h2 | h2
          · rw [h2]; exact hq
          · exact h.qty_pos o1 (List.mem_append_left _ h2)
        · exact h.qty_pos o1 (List.mem_append_right _ h1)
      nodup := by
        have hp : (OrderBook.resting { b with
            buy_orders := map_at bid_before o.price (fun q => q ++ [o]) b.buy_orders
            order_locations := loc_assign b.order_locations o.order_id (o.price, true) }).Perm
            (o :: b.resting) := by
          simp only [OrderBook.resting]
          exact (hperm.append_right _)
        refine ((hp.map Order.order_id).nodup_iff).mpr ?_
        simp only [List.map_cons, List.nodup_cons]
        refine ⟨?_, h.nodup⟩
        intro hmem
        obtain ⟨o1, ho1, e⟩ := List.mem_map.mp hmem
        exact hne o1 ho1 e
      buy_wf := side_wf_push h.buy_wf _ o hs ht
        (fun o1 ho1 => hne o1 (List.mem_append_left _ ho1))
      sell_wf := side_wf_loc_congr h.sell_wf (fun l hl o1 ho1 => loc_assign_ne _ _ _ _
        (hne o1 (List.mem_append_right _ (mem_side_orders.mpr ⟨l, hl, ho1⟩))))
      loc_used := hlu _ }
  · have hbuy : o.is_buy = false := by simp [Order.is_buy, hs]
    simp only [OrderBook.add_order, hlim, hbuy, Bool.not_true, Bool.false_eq_true, if_false]
    have hperm := map_at_push_perm ask_before o.price o b.sell_orders
    exact {
      buy_sorted := h.buy_sorted
      sell_sorted := map_at_sorted_ask _ _ _ h.sell_sorted
      qty_pos := by
        intro o1 ho1
        rcases List.mem_append.mp ho1 with h1 | h1
        · exact h.qty_pos o1 (List.mem_append_left _ h1)
        · rcases List.mem_cons.mp (hperm.subset h1) with h2 | h2
          · rw [h2]; exact hq
          · exact h.qty_pos o1 (List.mem_append_right _ h2)
      nodup := by
        have hp : (OrderBook.resting { b with
            sell_orders := map_at ask_before o.price (fun q => q ++ [o]) b.sell_orders
            order_locations := loc_assign b.order_locations o.order_id (o.price, false) }).Perm
            (o :: b.resting) := by
          simp only [OrderBook.resting]
          exact ((hperm.append_left _).trans List.perm_middle)
        refine ((hp.map Order.order_id).nodup_iff).mpr ?_
        simp only [List.map_cons, List.nodup_cons]
        refine ⟨?_, h.nodup⟩
        intro hmem
        obtain ⟨o1, ho1, e⟩ := List.mem_map.mp hmem
        exact hne o1 ho1 e
      buy_wf := side_wf_loc_congr h.buy_wf (fun l hl o1 ho1 => loc_assign_ne _ _ _ _
        (hne o1 (List.mem_append_left _ (mem_side_orders.mpr ⟨l, hl, ho1⟩))))
      sell_wf := side_wf_push h.sell_wf _ o hs ht
        (fun o1 ho1 => hne o1 (List.mem_append_right _ ho1))
      loc_used := hlu _ }

theorem Order.Validated.spec {o : Order} (h : o.Validated) :
    (o.side = "BUY" ∨ o.side = "SELL") ∧ (o.type = "LIMIT" ∨ o.type = "MARKET") ∧
      0 < o.quantity ∧ (o.type = "LIMIT" → 0 < o.price) := by
  unfold Order.Validated Order.new at h
  by_cases h1 : o.side ≠ "BUY" ∧ o.side ≠ "SELL"
  · simp [h1, Except.toOption] at h
  · by_cases h2 : o.type ≠ "LIMIT" ∧ o.type ≠ "MARKET"
    · simp [h1, h2, Except.toOption] at h
    · by_cases h3 : o.quantity ≤ 0
      · simp [h1, h2, h3, Except.toOption] at h
      · by_cases h4 : o.type = "LIMIT" ∧ o.price ≤ 0
        · simp [h1, h2, h3, h4, Except.toOption] at h
        · refine ⟨?_, ?_, by omega, ?_⟩
          · by_contra hc; push_neg at hc; exact h1 hc
          · by_contra hc; push_neg at hc; exact h2 hc
          · intro ht; by_contra hc; exact h4 ⟨ht, by omega⟩

theorem process_order_eq (e : MatchingEngine) (o : Order)
    (ht : o.type = "LIMIT" ∨ o.type = "MARKET") :
    e.process_order o = some (settle e o) := by
  have hmk1 : ∀ (a : Order) (x : Int) (p : Order) (fq : Int),
      create_fill { a with quantity := x } p (determine_fill_price { a with quantity := x } p) fq
        = create_fill a p (determine_fill_price a p) fq := fun _ _ _ _ => rfl
  have hmk2 : ∀ (a : Order) (x : Int) (p : Order) (fq : Int),
      create_fill p { a with quantity := x } (determine_fill_price { a with quantity := x } p) fq
        = create_fill p a (determine_fill_price a p) fq := fun _ _ _ _ => rfl
  have hmk3 : ∀ (a : Order) (x : Int) (p : Order) (fq : Int),
      create_fill { a with quantity := x } p p.price fq = create_fill a p p.price fq :=
    fun _ _ _ _ => rfl
  have hmk4 : ∀ (a : Order) (x : Int) (p : Order) (fq : Int),
      create_fill p { a with quantity := x } p.price fq = create_fill p a p.price fq :=
    fun _ _ _ _ => rfl
  rcases ht with ht | ht
  · have hl : o.is_limit = true := by simp [Order.is_limit, ht]
    by_cases hb : o.is_buy = true
    · have hstop : stop_of o = fun p => decide (o.price < p) := by
        funext p; simp [stop_of, hl, hb]
      have hfill : fill_of o = fun ev => create_fill o ev.1 ev.1.price ev.2 := by
        funext ev; simp [fill_of, hb]
      simp only [MatchingEngine.process_order, hl, if_true, MatchingEngine.match_limit_order, hb]
      rw [match_levels_eq (fun remaining ask_price => decide (remaining.price < ask_price))
        _ (fun _ _ _ => rfl) hmk1]
      simp [settle, matches_of, opp_levels, hstop, hfill, hl, hb, determine_fill_price]
    · have hb1 : o.is_buy = false := by simpa using hb
      have hstop : stop_of o = fun p => decide (o.price > p) := by
        funext p; simp [stop_of, hl, hb1]
      have hfill : fill_of o = fun ev => create_fill ev.1 o ev.1.price ev.2 := by
        funext ev; simp [fill_of, hb1]
      simp only [MatchingEngine.process_order, hl, if_true, MatchingEngine.match_limit_order,
        hb1, Bool.false_eq_true, if_false]
      rw [match_levels_eq (fun remaining bid_price => decide (remaining.price > bid_price))
        _ (fun _ _ _ => rfl) hmk2]
      simp [settle, matches_of, opp_levels, hstop, hfill, hl, hb1, determine_fill_price]
  · have hl : o.is_limit = false := by simp [Order.is_limit, ht]
    have hm : o.is_market = true := by simp [Order.is_market, ht]
    have hstop : stop_of o = fun _ => false := by
      funext p; simp [stop_of, hl]
    by_cases hb : o.is_buy = true
    · have hfill : fill_of o = fun ev => create_fill o ev.1 ev.1.price ev.2 := by
        funext ev; simp [fill_of, hb]
      simp only [MatchingEngine.process_order, hl, hm, if_true, Bool.false_eq_true, if_false,
        MatchingEngine.match_market_order, hb]
      rw [match_levels_eq (fun _ _ => false) _ (fun _ _ _ => rfl) hmk3]
      simp [settle, matches_of, opp_levels, hstop, hfill, hl, hb]
    · have hb1 : o.is_buy = false := by simpa using hb
      have hfill : fill_of o = fun ev => create_fill ev.1 o ev.1.price ev.2 := by
        funext ev; simp [fill_of, hb1]
      simp only [MatchingEngine.process_order, hl, hm, if_true, Bool.false_eq_true, if_false,
        MatchingEngine.match_market_order, hb1]
      rw [match_levels_eq (fun _ _ => false) _ (fun _ _ _ => rfl) hmk4]
      simp [settle, matches_of, opp_levels, hstop, hfill, hl, hb1]

theorem foldl_stats_book (fills : List Fill) : ∀ e : MatchingEngine,
    (fills.foldl MatchingEngine.update_statistics e).order_book = e.order_book := by
  induction fills with
  | nil => intro e; rfl
  | cons f rest ih => intro e; rw [List.foldl_cons, ih]; rfl

theorem settle_book (e : MatchingEngine) (o : Order) :
    (settle e o).2.order_book =
      if o.is_limit ∧ 0 < (matches_of e o).1 then
        OrderBook.add_order
          (if o.is_buy then { e.order_book with sell_orders := (matches_of e o).2.1 }
            else { e.order_book with buy_orders := (matches_of e o).2.1 })
          { o with quantity := (matches_of e o).1 }
      else
        (if o.is_buy then { e.order_book with sell_orders := (matches_of e o).2.1 }
          else { e.order_book with buy_orders := (matches_of e o).2.1 }) := by
  simp only [settle, foldl_stats_book]

theorem Inv.settle {used : List Nat} {e : MatchingEngine} (h : Inv used e.order_book)
    (o : Order) (hv : o.Validated) (hfresh : o.order_id ∉ used) :
    Inv (o.order_id :: used) (settle e o).2.order_book := by
  obtain ⟨hs, -, -, -⟩ := hv.spec
  rw [settle_book]
  have hbook : Inv used (if o.is_buy then
      { e.order_book with sell_orders := (matches_of e o).2.1 }
      else { e.order_book with buy_orders := (matches_of e o).2.1 }) := by
    by_cases hb : o.is_buy = true
    · simp only [hb, if_true, matches_of, opp_levels]
      exact h.sweep_sell _ _
    · simp only [hb, if_false, matches_of, opp_levels, Bool.false_eq_true]
      exact h.sweep_buy _ _
  by_cases hc : o.is_limit ∧ 0 < (matches_of e o).1
  · rw [if_pos hc]
    exact hbook.add_order { o with quantity := (matches_of e o).1 }
      (by simpa [Order.is_limit] using hc.1) hs hc.2 hfresh
  · rw [if_neg hc]
    exact hbook.mono _

theorem side_orders_clean (m : List Level) :
    side_orders (m.filter (fun l => !l.2.isEmpty)) = side_orders m := by
  induction m with
  | nil => rfl
  | cons l rest ih =>
    obtain ⟨p, q⟩ := l
    cases q with
    | nil => simp [List.filter_cons, ih]
    | cons a t => simp [List.filter_cons, ih]

theorem map_at_mem_ne (before : Int → Int → Bool) (p : Int) (f : List Order → List Order)
    (m : List Level) (hnd : ((map_at before p f m).map Prod.fst).Nodup) :
    ∀ l ∈ map_at before p f m,
      (l ∈ m ∧ l.1 ≠ p) ∨ ∃ q, l = (p, f q) ∧ ((p, q) ∈ m ∨ q = []) := by
  intro l hl
  obtain ⟨pre, post, q, h1, h2⟩ := map_at_decomp before p f m
  rw [h1] at hl hnd
  simp only [List.map_append, List.map_cons] at hnd
  have hpre : ∀ l ∈ pre, l.1 ≠ p := by
    intro l hl e
    have := (List.nodup_append.mp hnd).2.2
    exact this (List.mem_map_of_mem Prod.fst hl) (by rw [e]; exact List.mem_cons_self _ _)
  have hpost : ∀ l ∈ post, l.1 ≠ p := by
    intro l hl e
    have := (List.nodup_cons.mp (List.nodup_append.mp hnd).2.1).1
    exact this (by rw [← e]; exact List.mem_map_of_mem Prod.fst hl)
  rcases List.mem_append.mp hl with h | h
  · left
    refine ⟨?_, hpre l h⟩
    rcases h2 with h2 | ⟨-, h2⟩ <;> rw [h2] <;> exact List.mem_append_left _ h
  · rcases List.mem_cons.mp h with h | h
    · right
      refine ⟨q, h, ?_⟩
      rcases h2 with h2 | ⟨h2, -⟩
      · left; rw [h2]; simp
      · right; exact h2
    · left
      refine ⟨?_, hpost l h⟩
      rcases h2 with h2 | ⟨-, h2⟩ <;> rw [h2]
      · exact List.mem_append_right _ (List.mem_cons_of_mem _ h)
      · exact List.mem_append_right _ h

theorem sorted_keys_nodup_ask {m : List Level} (h : (m.map Prod.fst).Pairwise (· < ·)) :
    (m.map Prod.fst).Nodup :=
  h.imp (fun hab => ne_of_lt hab)

theorem sorted_keys_nodup_bid {m : List Level} (h : (m.map Prod.fst).Pairwise (· > ·)) :
    (m.map Prod.fst).Nodup :=
  h.imp (fun hab => ne_of_gt hab)

theorem map_at_filter_sublist (before : Int → Int → Bool) (p : Int) (c : Order → Bool)
    (m : List Level) :
    (side_orders (map_at before p (fun q => q.filter c) m)).Sublist (side_orders m) := by
  obtain ⟨A, q, B, h1, h2, -⟩ := map_at_orders before p (fun q => q.filter c) m
  rw [h1, h2]
  exact List.Sublist.append (List.Sublist.append (List.Sublist.refl _) (List.filter_sublist _))
    (List.Sublist.refl _)

/-- Removing the indexed order from its level keeps the side well formed for the index
without the entry. -/
theorem side_wf_remove {sd : String} {flag : Bool} {loc : Nat → Option (Int × Bool)}
    {m : List Level} (h : side_wf sd flag loc m) (before : Int → Int → Bool) (id : Nat)
    (p : Int) (hloc : loc id = some (p, flag))
    (hnd : ((map_at before p (fun q => q.filter (fun o => o.order_id ≠ id)) m).map
      Prod.fst).Nodup) :
    side_wf sd flag (loc_erase loc id)
      (map_at before p (fun q => q.filter (fun o => o.order_id ≠ id)) m) := by
  intro l hl o ho
  rcases map_at_mem_ne before p _ m hnd l hl with ⟨h1, h2⟩ | ⟨q, h1, h2⟩
  · obtain ⟨a, b, c, d⟩ := h l h1 o ho
    refine ⟨a, b, c, ?_⟩
    have hne : o.order_id ≠ id := by
      intro e
      rw [e, hloc] at d
      simp only [Option.some.injEq, Prod.mk.injEq, and_true] at d
      exact h2 d.symm
    simp only [loc_erase, hne, if_false]
    exact d
  · subst h1
    have ho1 := List.mem_filter.mp ho
    have hne : o.order_id ≠ id := by simpa using ho1.2
    rcases h2 with h2 | h2
    · obtain ⟨a, b, c, d⟩ := h _ h2 o ho1.1
      refine ⟨a, b, c, ?_⟩
      simp only [loc_erase, hne, if_false]
      exact d
    · subst h2; simp at ho1

theorem side_wf_erase_other {sd : String} {flag : Bool} {loc : Nat → Option (Int × Bool)}
    {m : List Level} (h : side_wf sd flag loc m) (id : Nat) (p : Int)
    (hloc : loc id = some (p, !flag)) : side_wf sd flag (loc_erase loc id) m := by
  refine side_wf_loc_congr h ?_
  intro l hl o ho
  have d := (h l hl o ho).2.2.2
  have hne : o.order_id ≠ id := by
    intro e
    rw [e, hloc] at d
    cases flag <;> simp at d
  simp [loc_erase, hne]

theorem side_wf_filter {sd : String} {flag : Bool} {loc : Nat → Option (Int × Bool)}
    {m : List Level} (h : side_wf sd flag loc m) (c : Level → Bool) :
    side_wf sd flag loc (m.filter c) :=
  fun l hl o ho => h l (List.mem_filter.mp hl).1 o ho

theorem Inv.cancel_order {used : List Nat} {b : OrderBook} (h : Inv used b) (id : Nat) :
    Inv used (b.cancel_order id).2 := by
  unfold OrderBook.cancel_order
  cases hloc : b.order_locations id with
  | none => exact h
  | some pf =>
    obtain ⟨p, flag⟩ := pf
    have hlu : ∀ k, loc_erase b.order_locations id k ≠ none → k ∈ used := by
      intro k hk
      by_cases e : k = id
      · simp [loc_erase, e] at hk
      · simp only [loc_erase, e, if_false] at hk; exact h.loc_used k hk
    cases flag with
    | true =>
      have hs := map_at_sorted_bid p (fun q => q.filter (fun o => o.order_id ≠ id)) _
        h.buy_sorted
      have hsub := map_at_filter_sublist bid_before p (fun o => o.order_id ≠ id) b.buy_orders
      simp only [OrderBook.remove_order_from_level, if_true, OrderBook.clean_empty_levels]
      exact {
        buy_sorted := hs.sublist ((List.filter_sublist _).map _)
        sell_sorted := h.sell_sorted.sublist ((List.filter_sublist _).map _)
        qty_pos := by
          intro o ho
          simp only [OrderBook.resting, side_orders_clean] at ho
          rcases List.mem_append.mp ho with h1 | h1
          · exact h.qty_pos o (List.mem_append_left _ (hsub.subset h1))
          · exact h.qty_pos o (List.mem_append_right _ h1)
        nodup := by
          refine h.nodup.sublist ?_
          simp only [OrderBook.resting, side_orders_clean]
          exact (List.Sublist.append hsub (List.Sublist.refl _)).map _
        buy_wf := side_wf_filter
          (side_wf_remove h.buy_wf bid_before id p hloc (sorted_keys_nodup_bid hs)) _
        sell_wf := side_wf_filter (side_wf_erase_other h.sell_wf id p hloc) _
        loc_used := hlu }
    | false =>
      have hs := map_at_sorted_ask p (fun q => q.filter (fun o => o.order_id ≠ id)) _
        h.sell_sorted
      have hsub := map_at_filter_sublist ask_before p (fun o => o.order_id ≠ id) b.sell_orders
      simp only [OrderBook.remove_order_from_level, Bool.false_eq_true, if_false,
        OrderBook.clean_empty_levels]
      exact {
        buy_sorted := h.buy_sorted.sublist ((List.filter_sublist _).map _)
        sell_sorted := hs.sublist ((List.filter_sublist _).map _)
        qty_pos := by
          intro o ho
          simp only [OrderBook.resting, side_orders_clean] at ho
          rcases List.mem_append.mp ho with h1 | h1
          · exact h.qty_pos o (List.mem_append_left _ h1)
          · exact h.qty_pos o (List.mem_append_right _ (hsub.subset h1))
        nodup := by
          refine h.nodup.sublist ?_
          simp only [OrderBook.resting, side_orders_clean]
          exact (List.Sublist.append (List.Sublist.refl _) hsub).map _
        buy_wf := side_wf_filter (side_wf_erase_other h.buy_wf id p hloc) _
        sell_wf := side_wf_filter
          (side_wf_remove h.sell_wf ask_before id p hloc (sorted_keys_nodup_ask hs)) _
        loc_used := hlu }

theorem modify_first_ids (id : Nat) (nq : Int) : ∀ q : List Order,
    ((modify_first id nq q).getD q).map Order.order_id = q.map Order.order_id := by
  intro q
  induction q with
  | nil => rfl
  | cons o rest ih =>
    by_cases h : o.order_id = id
    · simp [modify_first, h]
    · simp only [modify_first, h, if_false]
      cases hm : modify_first id nq rest with
      | none => simp
      | some r =>
        rw [hm] at ih
        simpa using ih

theorem modify_first_mem (id : Nat) (nq : Int) : ∀ q : List Order,
    ∀ o1 ∈ (modify_first id nq q).getD q,
      ∃ o ∈ q, o1.same_but_quantity o ∧ (o1 = o ∨ o1.quantity = nq) := by
  intro q
  induction q with
  | nil => intro o1 h; simp [modify_first] at h
  | cons o rest ih =>
    intro o1 h
    have hself : ∀ x ∈ o :: rest, ∃ y ∈ o :: rest, x.same_but_quantity y ∧
        (x = y ∨ x.quantity = nq) :=
      fun x hx => ⟨x, hx, ⟨rfl, rfl, rfl, rfl⟩, Or.inl rfl⟩
    by_cases he : o.order_id = id
    · simp only [modify_first, he, if_true, Option.getD_some, List.mem_cons] at h
      rcases h with h | h
      · subst h
        exact ⟨o, List.mem_cons_self _ _, ⟨he.symm, rfl, rfl, rfl⟩, Or.inr rfl⟩
      · exact hself o1 (List.mem_cons_of_mem _ h)
    · simp only [modify_first, he, if_false] at h
      cases hm : modify_first id nq rest with
      | none =>
        rw [hm] at h
        exact hself o1 (by simpa using h)
      | some r =>
        rw [hm] at h ih
        simp only [Option.map_some', Option.getD_some, List.mem_cons] at h
        rcases h with h | h
        · subst h; exact hself o1 (List.mem_cons_self _ _)
        · obtain ⟨y, hy, h2⟩ := ih o1 (by simpa using h)
          exact ⟨y, List.mem_cons_of_mem _ hy, h2⟩

theorem map_at_edit_ids (before : Int → Int → Bool) (p : Int) (id : Nat) (nq : Int)
    (m : List Level) :
    (side_orders (map_at before p (fun q => (modify_first id nq q).getD q) m)).map
      Order.order_id = (side_orders m).map Order.order_id := by
  obtain ⟨A, q, B, h1, h2, -⟩ :=
    map_at_orders before p (fun q => (modify_first id nq q).getD q) m
  rw [h1, h2]
  simp only [List.map_append, modify_first_ids]

theorem map_at_edit_pos (before : Int → Int → Bool) (p : Int) (id : Nat) (nq : Int)
    (hnq : 0 < nq) (m : List Level) (h : ∀ o ∈ side_orders m, 0 < o.quantity) :
    ∀ o ∈ side_orders (map_at before p (fun q => (modify_first id nq q).getD q) m),
      0 < o.quantity := by
  obtain ⟨A, q, B, h1, h2, -⟩ :=
    map_at_orders before p (fun q => (modify_first id nq q).getD q) m
  rw [h1]
  rw [h2] at h
  intro o ho
  simp only [List.mem_append] at ho h
  rcases ho with (ho | ho) | ho
  · exact h o (Or.inl (Or.inl ho))
  · obtain ⟨y, hy, -, h3 | h3⟩ := modify_first_mem id nq q o ho
    · rw [h3]; exact h y (Or.inl (Or.inr hy))
    · rw [h3]; exact hnq
  · exact h o (Or.inr ho)

theorem side_wf_edit {sd : String} {flag : Bool} {loc : Nat → Option (Int × Bool)}
    {m : List Level} (h : side_wf sd flag loc m) (before : Int → Int → Bool) (p : Int)
    (id : Nat) (nq : Int) :
    side_wf sd flag loc (map_at before p (fun q => (modify_first id nq q).getD q) m) := by
  refine side_wf_map_at h before p _ (fun _ _ _ _ => rfl) ?_
  intro q hq o1 ho1
  obtain ⟨y, hy, ⟨e1, e2, e3, e4⟩, -⟩ := modify_first_mem id nq q o1 ho1
  rcases hq with hq | hq
  · obtain ⟨a, b, c, d⟩ := h _ hq y hy
    rw [e1, e2, e3, e4]
    exact ⟨a, b, c, d⟩
  · subst hq; simp at hy

theorem Inv.modify_order {used : List Nat} {b : OrderBook} (h : Inv used b) (id : Nat)
    (nq : Int) : Inv used (b.modify_order id nq).2 := by
  unfold OrderBook.modify_order
  cases hloc : b.order_locations id with
  | none => exact h
  | some pf =>
    obtain ⟨p, flag⟩ := pf
    by_cases hq : nq ≤ 0
    · simp only [hq, if_true]; exact h
    · have hnq : 0 < nq := not_le.mp hq
      cases flag with
      | true =>
        simp only [hq, if_false, if_true]
        exact {
          buy_sorted := map_at_sorted_bid _ _ _ h.buy_sorted
          sell_sorted := h.sell_sorted
          qty_pos := by
            intro o ho
            rcases List.mem_append.mp ho with h1 | h1
            · exact map_at_edit_pos bid_before p id nq hnq _
                (fun o ho => h.qty_pos o (List.mem_append_left _ ho)) o h1
            · exact h.qty_pos o (List.mem_append_right _ h1)
          nodup := by
            have := h.nodup
            simp only [OrderBook.resting, List.map_append, map_at_edit_ids] at this ⊢
            exact this
          buy_wf := side_wf_edit h.buy_wf _ _ _ _
          sell_wf := h.sell_wf
          loc_used := h.loc_used }
      | false =>
        simp only [hq, if_false, Bool.false_eq_true]
        exact {
          buy_sorted := h.buy_sorted
          sell_sorted := map_at_sorted_ask _ _ _ h.sell_sorted
          qty_pos := by
            intro o ho
            rcases List.mem_append.mp ho with h1 | h1
            · exact h.qty_pos o (List.mem_append_left _ h1)
            · exact map_at_edit_pos ask_before p id nq hnq _
                (fun o ho => h.qty_pos o (List.mem_append_right _ ho)) o h1
          nodup := by
            have := h.nodup
            simp only [OrderBook.resting, List.map_append, map_at_edit_ids] at this ⊢
            exact this
          buy_wf := h.buy_wf
          sell_wf := side_wf_edit h.sell_wf _ _ _ _
          loc_used := h.loc_used }

theorem Inv.init : Inv [] OrderBook.init where
  buy_sorted := List.Pairwise.nil
  sell_sorted := List.Pairwise.nil
  qty_pos := by intro o ho; simp [OrderBook.init, OrderBook.resting] at ho
  nodup := by simp [OrderBook.init, OrderBook.resting]
  buy_wf := by intro l hl; simp [OrderBook.init] at hl
  sell_wf := by intro l hl; simp [OrderBook.init] at hl
  loc_used := by intro id hid; simp [OrderBook.init] at hid

/-- Every reachable engine state satisfies the book invariant. -/
theorem Reachable.inv {used : List Nat} {e : MatchingEngine} (h : Reachable used e) :
    Inv used e.order_book := by
  induction h with
  | init => exact Inv.init
  | process o _ hv hfresh hp ih =>
    rw [process_order_eq _ o hv.spec.2.1] at hp
    have := ih.settle o hv hfresh
    simp only [Option.some.injEq] at hp
    rw [hp] at this
    exact this
  | cancel id _ ih => exact ih.cancel_order id
  | modify id nq _ ih => exact ih.modify_order id nq

theorem qty_sum_append (a b : List Order) : qty_sum (a ++ b) = qty_sum a + qty_sum b := by
  simp [qty_sum]

theorem qty_of_append (x : Nat) (a b : List Order) :
    qty_of x (a ++ b) = qty_of x a + qty_of x b := by
  simp [qty_of, qty_sum_append]

theorem qty_of_perm (x : Nat) {a b : List Order} (h : a.Perm b) : qty_of x a = qty_of x b := by
  unfold qty_of qty_sum
  exact ((h.filter _).map _).sum_eq

theorem qty_of_eq_zero (x : Nat) (l : List Order) (h : ∀ o ∈ l, o.order_id ≠ x) :
    qty_of x l = 0 := by
  have : l.filter (fun o => decide (o.order_id = x)) = [] := by
    rw [List.filter_eq_nil_iff]
    intro o ho
    simpa using h o ho
  simp [qty_of, this, qty_sum]

theorem qty_of_mem {l : List Order} (hnd : (l.map Order.order_id).Nodup) {x : Order}
    (hx : x ∈ l) : qty_of x.order_id l = x.quantity := by
  induction l with
  | nil => simp at hx
  | cons a rest ih =>
    simp only [List.map_cons, List.nodup_cons] at hnd
    rcases List.mem_cons.mp hx with h | h
    · subst h
      have h0 := qty_of_eq_zero x.order_id rest (fun o ho e =>
        hnd.1 (e ▸ List.mem_map_of_mem Order.order_id ho))
      have := qty_of_append x.order_id [x] rest
      simp only [List.singleton_append] at this
      rw [this, h0]
      simp [qty_of, qty_sum]
    · have hne : a.order_id ≠ x.order_id := fun e =>
        hnd.1 (e ▸ List.mem_map_of_mem Order.order_id h)
      have := qty_of_append x.order_id [a] rest
      simp only [List.singleton_append] at this
      rw [this, ih hnd.2 h]
      simp [qty_of, qty_sum, hne]

theorem quantity_of_eq {b : OrderBook} (hnd : (b.resting.map Order.order_id).Nodup)
    (x : Nat) : b.quantity_of x = qty_of x b.resting := by
  unfold OrderBook.quantity_of
  generalize b.resting = l at hnd
  induction l with
  | nil => simp [qty_of, qty_sum]
  | cons a rest ih =>
    simp only [List.map_cons, List.nodup_cons] at hnd
    have happ := qty_of_append x [a] rest
    simp only [List.singleton_append] at happ
    by_cases h : a.order_id = x
    · have h0 := qty_of_eq_zero x rest (fun o ho e =>
        hnd.1 (by rw [h, ← e]; exact List.mem_map_of_mem Order.order_id ho))
      rw [happ, h0]
      simp [List.find?_cons, h, qty_of, qty_sum]
    · rw [happ, ← ih hnd.2]
      simp [List.find?_cons, h, qty_of, qty_sum]

theorem side_orders_split (c : Level → Bool) (m : List Level) :
    side_orders m = side_orders (m.takeWhile c) ++ side_orders (m.dropWhile c) := by
  rw [← side_orders_append, List.takeWhile_append_dropWhile]

theorem side_orders_taken (c : Level → Bool) (m : List Level) :
    ∀ o ∈ side_orders (m.takeWhile c), o ∈ side_orders m := by
  intro o ho
  rw [side_orders_split c m]
  exact List.mem_append_left _ ho

theorem sweep_ev_pos (stop : Int → Bool) (m : List Level) (r : Int)
    (h : ∀ o ∈ side_orders m, 0 < o.quantity) :
    ∀ ev ∈ (sweep stop r m).2.2, 0 < ev.2 ∧ ev.2 ≤ ev.1.quantity ∧ ev.1 ∈ side_orders m := by
  intro ev hev
  obtain ⟨-, h2, -⟩ := sweep_flat stop m r
  rw [h2] at hev
  have hsub := side_orders_taken (fun l => !stop l.1) m
  obtain ⟨a, b, c⟩ := drain_ev_pos _ r (fun o ho => h o (hsub o ho)) ev hev
  exact ⟨a, b, hsub _ c⟩

theorem sweep_ev_mem (stop : Int → Bool) (m : List Level) (r : Int) :
    ∀ ev ∈ (sweep stop r m).2.2, ev.1 ∈ side_orders m := by
  intro ev hev
  obtain ⟨-, h2, -⟩ := sweep_flat stop m r
  rw [h2] at hev
  exact side_orders_taken _ m _ (drain_ev_mem _ r ev hev)

theorem sweep_conserve (stop : Int → Bool) (m : List Level) (r : Int) (x : Nat) :
    ev_of x (sweep stop r m).2.2 + qty_of x (side_orders (sweep stop r m).2.1) =
      qty_of x (side_orders m) := by
  obtain ⟨-, h2, h3⟩ := sweep_flat stop m r
  rw [h2, h3, qty_of_append, ← add_assoc, drain_conserve, ← qty_of_append,
    ← side_orders_split]

theorem sweep_left (stop : Int → Bool) (m : List Level) (r : Int) :
    (sweep stop r m).1 = r - ev_total (sweep stop r m).2.2 := by
  obtain ⟨h1, h2, -⟩ := sweep_flat stop m r
  rw [h1, h2, drain_left]

theorem sweep_total (stop : Int → Bool) (m : List Level) (r : Int)
    (h : ∀ o ∈ side_orders m, 0 < o.quantity) (hr : 0 ≤ r) :
    ev_total (sweep stop r m).2.2 =
      min r (qty_sum (side_orders (m.takeWhile (fun l => !stop l.1)))) := by
  obtain ⟨-, h2, -⟩ := sweep_flat stop m r
  rw [h2]
  exact drain_total _ r (fun o ho => h o (side_orders_taken _ m o ho)) hr

theorem fill_of_quantity (o : Order) (ev : Order × Int) : (fill_of o ev).quantity = ev.2 := by
  unfold fill_of; split <;> rfl

theorem fill_of_price (o : Order) (ev : Order × Int) : (fill_of o ev).price = ev.1.price := by
  unfold fill_of; split <;> rfl

theorem fill_of_buy {o : Order} (hb : o.side = "BUY") (ev : Order × Int) :
    (fill_of o ev).buy_order_id = o.order_id ∧ (fill_of o ev).sell_order_id = ev.1.order_id := by
  simp [fill_of, create_fill, Order.is_buy, Order.is_sell, hb]

theorem fill_of_sell {o : Order} (hs : o.side = "SELL") {ev : Order × Int}
    (hp : ev.1.side = "BUY") :
    (fill_of o ev).buy_order_id = ev.1.order_id ∧ (fill_of o ev).sell_order_id = o.order_id := by
  simp [fill_of, create_fill, Order.is_buy, Order.is_sell, hs, hp]

theorem is_buy_of_side {o : Order} (h : o.side = "BUY") : o.is_buy = true := by
  simp [Order.is_buy, h]

theorem not_is_buy_of_side {o : Order} (h : o.side = "SELL") : o.is_buy = false := by
  simp [Order.is_buy, h]

/-- Orders on the side opposite to a Sell order are Buy orders. -/
theorem Inv.opp_of_sell {used : List Nat} {b : OrderBook} (h : Inv used b) {o : Order}
    (hs : o.side = "SELL") : ∀ x ∈ side_orders (opp_levels b o), x.side = "BUY" := by
  intro x hx
  simp only [opp_levels, not_is_buy_of_side hs, Bool.false_eq_true, if_false] at hx
  obtain ⟨l, hl, hxl⟩ := mem_side_orders.mp hx
  exact (h.buy_wf l hl x hxl).1

/-- Orders on the side opposite to a Buy order are Sell orders. -/
theorem Inv.opp_of_buy {used : List Nat} {b : OrderBook} (h : Inv used b) {o : Order}
    (hs : o.side = "BUY") : ∀ x ∈ side_orders (opp_levels b o), x.side = "SELL" := by
  intro x hx
  simp only [opp_levels, is_buy_of_side hs, if_true] at hx
  obtain ⟨l, hl, hxl⟩ := mem_side_orders.mp hx
  exact (h.sell_wf l hl x hxl).1

theorem resting_perm_sides (b : OrderBook) (o : Order) :
    b.resting.Perm (side_orders (opp_levels b o) ++ side_orders (own_levels b o)) := by
  unfold OrderBook.resting opp_levels own_levels
  by_cases hb : o.is_buy = true
  · simp only [hb, if_true]; exact List.perm_append_comm
  · simp only [hb, if_false]; exact List.Perm.refl _

theorem Inv.mem_opp {used : List Nat} {b : OrderBook} (_h : Inv used b) (o : Order)
    {x : Order} (hx : x ∈ side_orders (opp_levels b o)) : x ∈ b.resting :=
  (resting_perm_sides b o).symm.subset (List.mem_append_left _ hx)

/-- The name test on a fill of the incoming order `o`: it names `o` and the passive order. -/
theorem fill_of_names {used : List Nat} {b : OrderBook} (h : Inv used b) {o : Order}
    (hs : o.side = "BUY" ∨ o.side = "SELL") {ev : Order × Int}
    (hev : ev.1 ∈ side_orders (opp_levels b o)) (x : Nat) :
    (fill_of o ev).names x = true ↔ (o.order_id = x ∨ ev.1.order_id = x) := by
  rcases hs with hs | hs
  · obtain ⟨h1, h2⟩ := fill_of_buy hs ev
    simp [Fill.names, h1, h2]
  · obtain ⟨h1, h2⟩ := fill_of_sell hs (h.opp_of_sell hs ev.1 hev)
    simp only [Fill.names, h1, h2, Bool.or_eq_true, beq_iff_eq]
    exact Or.comm

theorem fills_total_map (o : Order) (evs : List (Order × Int)) :
    fills_total (evs.map (fill_of o)) = ev_total evs := by
  simp only [fills_total, ev_total, List.map_map]
  congr 1
  exact List.map_congr_left (fun ev _ => fill_of_quantity o ev)

theorem fills_naming_map {used : List Nat} {b : OrderBook} (h : Inv used b) {o : Order}
    (hs : o.side = "BUY" ∨ o.side = "SELL") (x : Nat) (hx : o.order_id ≠ x) :
    ∀ evs : List (Order × Int), (∀ ev ∈ evs, ev.1 ∈ side_orders (opp_levels b o)) →
      fills_naming x (evs.map (fill_of o)) = ev_of x evs := by
  intro evs
  induction evs with
  | nil => intro _; rfl
  | cons ev rest ih =>
    intro hall
    have hrest := ih (fun ev1 h1 => hall ev1 (List.mem_cons_of_mem _ h1))
    have hn := fill_of_names h hs (hall ev (List.mem_cons_self _ _)) x
    simp only [fills_naming, fills_total, ev_of] at hrest ⊢
    by_cases hid : ev.1.order_id = x
    · have : (fill_of o ev).names x = true := hn.mpr (Or.inr hid)
      simp only [List.map_cons, List.filter_cons, this, if_true, hid, decide_True,
        List.sum_cons, fill_of_quantity, hrest]
    · have : (fill_of o ev).names x = false := by
        rw [Bool.eq_false_iff]
        intro hc
        rcases hn.mp hc with h1 | h1
        · exact hx h1
        · exact hid h1
      simp only [List.map_cons, List.filter_cons, this, hid, decide_False,
        Bool.false_eq_true, if_false, hrest]

theorem add_order_resting_perm (b : OrderBook) (o : Order) (hl : o.is_limit = true) :
    (b.add_order o).resting.Perm (o :: b.resting) := by
  by_cases hb : o.is_buy = true
  · simp only [OrderBook.add_order, hl, hb, Bool.not_true, Bool.false_eq_true, if_false,
      if_true, OrderBook.resting]
    exact (map_at_push_perm bid_before o.price o b.buy_orders).append_right _
  · simp only [OrderBook.add_order, hl, hb, Bool.not_true, Bool.false_eq_true, if_false,
      OrderBook.resting]
    exact ((map_at_push_perm ask_before o.price o b.sell_orders).append_left _).trans
      List.perm_middle

/-- The orders resting after `process_order`: the unfilled rest of a Limit order, what the
walk left on the opposite side, and the untouched own side. -/
theorem settle_resting (e : MatchingEngine) (o : Order) :
    (settle e o).2.order_book.resting.Perm
      ((if o.is_limit ∧ 0 < (matches_of e o).1 then
          [{ o with quantity := (matches_of e o).1 }] else []) ++
        (side_orders (matches_of e o).2.1 ++ side_orders (own_levels e.order_book o))) := by
  rw [settle_book]
  have hbook : (OrderBook.resting (if o.is_buy then
      { e.order_book with sell_orders := (matches_of e o).2.1 }
      else { e.order_book with buy_orders := (matches_of e o).2.1 })).Perm
      (side_orders (matches_of e o).2.1 ++ side_orders (own_levels e.order_book o)) := by
    by_cases hb : o.is_buy = true
    · simp only [hb, if_true, OrderBook.resting, own_levels]
      exact List.perm_append_comm
    · simp only [hb, if_false, OrderBook.resting, own_levels, Bool.false_eq_true]
      exact List.Perm.refl _
  by_cases hc : o.is_limit ∧ 0 < (matches_of e o).1
  · rw [if_pos hc, if_pos hc]
    refine (add_order_resting_perm _ { o with quantity := (matches_of e o).1 } hc.1).trans ?_
    exact List.Perm.cons _ hbook
  · rw [if_neg hc, if_neg hc]
    exact hbook

/-- Per-id conservation of quantity over one `process_order` call. -/
theorem settle_conserve (e : MatchingEngine) (o : Order) (x : Nat) (hx : o.order_id ≠ x) :
    ev_of x (matches_of e o).2.2 + qty_of x (settle e o).2.order_book.resting =
      qty_of x e.order_book.resting := by
  rw [qty_of_perm x (settle_resting e o), qty_of_perm x (resting_perm_sides e.order_book o),
    qty_of_append, qty_of_append, qty_of_append]
  have h0 : qty_of x (if o.is_limit ∧ 0 < (matches_of e o).1 then
      [{ o with quantity := (matches_of e o).1 }] else []) = 0 := by
    refine qty_of_eq_zero x _ ?_
    intro y hy
    split at hy
    · have : y = { o with quantity := (matches_of e o).1 } := by simpa using hy
      rw [this]; exact hx
    · simp at hy
  have hc := sweep_conserve (stop_of o) (opp_levels e.order_book o) o.quantity x
  rw [h0]
  unfold matches_of
  omega

/-! ## The claims -/

/-- C1 (the code departs from the claim). The sell order 1 rests, the buy order 2 fills it
completely, so no order with id 1 rests in the reachable state; `cancel_order 1` still returns
true, because the matcher pops the filled order without erasing its index entry. -/
theorem C1_cancel_of_filled_order_returns_true :
    ∃ e, run_orders MatchingEngine.init
        [⟨1, 100, 10, "SELL", "LIMIT"⟩, ⟨2, 100, 10, "BUY", "LIMIT"⟩] = some e ∧
      Reachable [2, 1] e ∧ ¬ e.order_book.is_resting 1 ∧ (e.cancel_order 1).1 = true := by
  have h1 := process_order_eq MatchingEngine.init ⟨1, 100, 10, "SELL", "LIMIT"⟩ (Or.inl rfl)
  have h2 := process_order_eq (settle MatchingEngine.init ⟨1, 100, 10, "SELL", "LIMIT"⟩).2
    ⟨2, 100, 10, "BUY", "LIMIT"⟩ (Or.inl rfl)
  refine ⟨(settle (settle MatchingEngine.init ⟨1, 100, 10, "SELL", "LIMIT"⟩).2
      ⟨2, 100, 10, "BUY", "LIMIT"⟩).2, by simp only [run_orders, h1, h2], ?_, by decide,
    by decide⟩
  exact Reachable.process _ (Reachable.process _ Reachable.init (by decide) (by decide) h1)
    (by decide) (by decide) h2

theorem run_orders_reachable : ∀ (os : List Order) (used : List Nat) (e : MatchingEngine),
    Reachable used e → (∀ o ∈ os, o.Validated) →
    (os.map Order.order_id).Nodup → (∀ o ∈ os, o.order_id ∉ used) →
    ∃ e1, run_orders e os = some e1 ∧
      Reachable ((os.map Order.order_id).reverse ++ used) e1 := by
  intro os
  induction os with
  | nil => intro used e hr _ _ _; exact ⟨e, rfl, by simpa using hr⟩
  | cons o rest ih =>
    intro used e hr hv hnd hf
    simp only [List.map_cons, List.nodup_cons] at hnd
    have hp := process_order_eq e o (hv o (List.mem_cons_self _ _)).spec.2.1
    have hr1 : Reachable (o.order_id :: used) (settle e o).2 :=
      Reachable.process o hr (hv o (List.mem_cons_self _ _)) (hf o (List.mem_cons_self _ _)) hp
    obtain ⟨e1, h1, h2⟩ := ih (o.order_id :: used) (settle e o).2 hr1
      (fun x hx => hv x (List.mem_cons_of_mem _ hx)) hnd.2
      (fun x hx hc => by
        rcases List.mem_cons.mp hc with h | h
        · exact hnd.1 (h ▸ List.mem_map_of_mem Order.order_id hx)
        · exact hf x (List.mem_cons_of_mem _ hx) h)
    refine ⟨e1, ?_, ?_⟩
    · simp only [run_orders, hp]; exact h1
    · simpa using h2

theorem demo_reachable : Reachable [4, 3, 2, 1] demo_engine := by
  obtain ⟨e1, h1, h2⟩ := run_orders_reachable demo_orders [] MatchingEngine.init
    Reachable.init (by decide) (by decide) (by decide)
  have : demo_engine = e1 := by simp [demo_engine, h1]
  rw [this]
  exact h2

/-- C2. For a validated incoming order whose id has not been submitted before: every fill
has a positive quantity; for each order resting before the call the fills naming it add up
to the decrease of its quantity (its whole quantity when it has left the book); the fills
add up to at most the incoming quantity. -/
theorem C2_fill_quantities_account (used : List Nat) (e : MatchingEngine) (o : Order)
    (hr : Reachable used e) (hv : o.Validated) (hf : o.order_id ∉ used) :
    ∃ fills e1, e.process_order o = some (fills, e1) ∧
      (∀ f ∈ fills, 0 < f.quantity) ∧
      (∀ x ∈ e.order_book.resting,
        fills_naming x.order_id fills = x.quantity - e1.order_book.quantity_of x.order_id) ∧
      fills_total fills ≤ o.quantity := by
  obtain ⟨hs, ht, hq, -⟩ := hv.spec
  have hinv := hr.inv
  have hinv1 := hinv.settle o hv hf
  have hpos : ∀ x ∈ side_orders (opp_levels e.order_book o), 0 < x.quantity :=
    fun x hx => hinv.qty_pos x (hinv.mem_opp o hx)
  refine ⟨(settle e o).1, (settle e o).2, process_order_eq e o ht, ?_, ?_, ?_⟩
  · intro f hf1
    obtain ⟨ev, hev, rfl⟩ := List.mem_map.mp hf1
    rw [fill_of_quantity]
    exact (sweep_ev_pos _ _ _ hpos ev hev).1
  · intro x hx
    have hne : o.order_id ≠ x.order_id := fun heq => hf (heq ▸ hinv.id_used hx)
    have h1 : fills_naming x.order_id (settle e o).1 = ev_of x.order_id (matches_of e o).2.2 :=
      fills_naming_map hinv hs x.order_id hne _ (sweep_ev_mem _ _ _)
    have h2 := settle_conserve e o x.order_id hne
    rw [h1, quantity_of_eq hinv1.nodup, ← qty_of_mem hinv.nodup hx]
    omega
  · show fills_total ((matches_of e o).2.2.map (fill_of o)) ≤ o.quantity
    rw [fills_total_map]
    unfold matches_of
    rw [sweep_total _ _ _ hpos (le_of_lt hq)]
    exact min_le_left _ _

theorem C2_fill_quantities_account_witness :
    ∃ fills e1, demo_engine.process_order ⟨5, 100, 12, "BUY", "LIMIT"⟩ = some (fills, e1) ∧
      (∀ f ∈ fills, 0 < f.quantity) ∧
      (∀ x ∈ demo_engine.order_book.resting,
        fills_naming x.order_id fills = x.quantity - e1.order_book.quantity_of x.order_id) ∧
      fills_total fills ≤ (⟨5, 100, 12, "BUY", "LIMIT"⟩ : Order).quantity :=
  C2_fill_quantities_account [4, 3, 2, 1] demo_engine ⟨5, 100, 12, "BUY", "LIMIT"⟩
    demo_reachable (by decide) (by decide)

/-- C4. Fills are attributed by side: for an incoming Buy the buy id is the incoming id and
the sell id is the id of a Sell order that rested on the ask side; for an incoming Sell the
sell id is the incoming id and the buy id is the id of a Buy order that rested on the bid
side. -/
theorem C4_fill_attribution_by_side (used : List Nat) (e : MatchingEngine) (o : Order)
    (hr : Reachable used e) (hv : o.Validated) :
    ∃ fills e1, e.process_order o = some (fills, e1) ∧
      (o.side = "BUY" → ∀ f ∈ fills, f.buy_order_id = o.order_id ∧
        ∃ x ∈ side_orders e.order_book.sell_orders,
          x.side = "SELL" ∧ f.sell_order_id = x.order_id) ∧
      (o.side = "SELL" → ∀ f ∈ fills, f.sell_order_id = o.order_id ∧
        ∃ x ∈ side_orders e.order_book.buy_orders,
          x.side = "BUY" ∧ f.buy_order_id = x.order_id) := by
  obtain ⟨-, ht, -, -⟩ := hv.spec
  have hinv := hr.inv
  refine ⟨(settle e o).1, (settle e o).2, process_order_eq e o ht, ?_, ?_⟩
  · intro hs f hf1
    obtain ⟨ev, hev, rfl⟩ := List.mem_map.mp hf1
    have hmem := sweep_ev_mem _ _ _ ev hev
    refine ⟨(fill_of_buy hs ev).1, ev.1, ?_, hinv.opp_of_buy hs ev.1 hmem, (fill_of_buy hs ev).2⟩
    simpa [matches_of, opp_levels, is_buy_of_side hs] using hmem
  · intro hs f hf1
    obtain ⟨ev, hev, rfl⟩ := List.mem_map.mp hf1
    have hmem := sweep_ev_mem _ _ _ ev hev
    have hside := hinv.opp_of_sell hs ev.1 hmem
    refine ⟨(fill_of_sell hs hside).2, ev.1, ?_, hside, (fill_of_sell hs hside).1⟩
    simpa [matches_of, opp_levels, not_is_buy_of_side hs] using hmem

theorem C4_fill_attribution_by_side_witness :
    ∃ fills e1, demo_engine.process_order ⟨5, 0, 9, "SELL", "MARKET"⟩ = some (fills, e1) ∧
      ((⟨5, 0, 9, "SELL", "MARKET"⟩ : Order).side = "BUY" →
        ∀ f ∈ fills, f.buy_order_id = (⟨5, 0, 9, "SELL", "MARKET"⟩ : Order).order_id ∧
        ∃ x ∈ side_orders demo_engine.order_book.sell_orders,
          x.side = "SELL" ∧ f.sell_order_id = x.order_id) ∧
      ((⟨5, 0, 9, "SELL", "MARKET"⟩ : Order).side = "SELL" →
        ∀ f ∈ fills, f.sell_order_id = (⟨5, 0, 9, "SELL", "MARKET"⟩ : Order).order_id ∧
        ∃ x ∈ side_orders demo_engine.order_book.buy_orders,
          x.side = "BUY" ∧ f.buy_order_id = x.order_id) :=
  C4_fill_attribution_by_side [4, 3, 2, 1] demo_engine ⟨5, 0, 9, "SELL", "MARKET"⟩
    demo_reachable (by decide)

theorem is_limit_of_type {o : Order} (h : o.type = "LIMIT") : o.is_limit = true := by
  simp [Order.is_limit, h]

theorem not_is_limit_of_type {o : Order} (h : o.type = "MARKET") : o.is_limit = false := by
  simp [Order.is_limit, h]

theorem create_fill_toDbl (a b : Order) (p : Int) (fq : Int) :
    Dbl.create_fill a.toDbl b.toDbl (.num p) fq = (create_fill a b p fq).toDbl := rfl

theorem validated_toDbl (o : Order) : o.toDbl.Validated ↔ o.Validated := by
  unfold Dbl.Order.Validated Order.Validated Dbl.Order.new Order.new
  have hle : Dbl.Price.le o.toDbl.price (.num 0) = decide (o.price ≤ 0) := rfl
  have h1 : o.toDbl.side = o.side := rfl
  have h2 : o.toDbl.type = o.type := rfl
  have h3 : o.toDbl.quantity = o.quantity := rfl
  rw [hle, h1, h2, h3]
  by_cases a : o.side ≠ "BUY" ∧ o.side ≠ "SELL"
  · simp [a, Except.toOption]
  · by_cases b : o.type ≠ "LIMIT" ∧ o.type ≠ "MARKET"
    · simp [a, b, Except.toOption]
    · by_cases c : o.quantity ≤ 0
      · simp [a, b, c, Except.toOption]
      · by_cases d : o.type = "LIMIT" ∧ o.price ≤ 0
        · simp [a, b, c, d, Except.toOption]
        · simp only [a, b, c, d, if_false, decide_eq_true_eq, Except.toOption]
          exact ⟨fun _ => trivial, fun _ => rfl⟩

/-- C6. In a book that satisfies the invariant of reachable books, a validated Market order
is filled for the smaller of its quantity and the whole quantity resting on the opposite
side, whatever the prices. -/
theorem C6_market_fill_total (used : List Nat) (e : MatchingEngine) (o : Order)
    (hinv : Inv used e.order_book) (hv : o.Validated) (ht : o.type = "MARKET") :
    ∃ fills e1, e.process_order o = some (fills, e1) ∧
      fills_total fills = min o.quantity (opposite_quantity e.order_book o) := by
  obtain ⟨-, -, hq, -⟩ := hv.spec
  have hpos : ∀ x ∈ side_orders (opp_levels e.order_book o), 0 < x.quantity :=
    fun x hx => hinv.qty_pos x (hinv.mem_opp o hx)
  have hfun : (fun l : Level => !stop_of o l.1) = fun _ => true := by
    funext l; simp [stop_of, not_is_limit_of_type ht]
  have hall : (opp_levels e.order_book o).takeWhile (fun _ => true) =
      opp_levels e.order_book o := by
    rw [List.takeWhile_eq_self_iff]; intro _ _; rfl
  refine ⟨(settle e o).1, (settle e o).2, process_order_eq e o (Or.inr ht), ?_⟩
  show fills_total ((matches_of e o).2.2.map (fill_of o)) = _
  rw [fills_total_map]
  unfold matches_of
  rw [sweep_total _ _ _ hpos (le_of_lt hq), hfun, hall]
  unfold opposite_quantity opp_levels
  split <;> rfl

theorem C6_market_fill_total_witness :
    Inv [4, 3, 2, 1] demo_engine.order_book ∧
    demo_engine.order_book.sell_orders =
      [(100, [⟨1, 100, 10, "SELL", "LIMIT"⟩, ⟨2, 100, 5, "SELL", "LIMIT"⟩]),
        (101, [⟨3, 101, 7, "SELL", "LIMIT"⟩])] ∧
    opposite_quantity demo_engine.order_book ⟨5, 0, 30, "BUY", "MARKET"⟩ = 22 ∧
    ∃ fills e1, demo_engine.process_order ⟨5, 0, 30, "BUY", "MARKET"⟩ = some (fills, e1) ∧
      fills_total fills = 22 := by
  obtain ⟨fills, e1, h1, h2⟩ :=
    C6_market_fill_total [4, 3, 2, 1] demo_engine ⟨5, 0, 30, "BUY", "MARKET"⟩
      demo_reachable.inv (by decide) (by decide)
  have hc : opposite_quantity demo_engine.order_book ⟨5, 0, 30, "BUY", "MARKET"⟩ = 22 := by
    decide
  refine ⟨demo_reachable.inv, by decide, hc, fills, e1, h1, ?_⟩
  rw [h2, hc]; rfl

theorem settle_book_buy (e : MatchingEngine) (o : Order) (hb : o.is_buy = true) :
    (settle e o).2.order_book =
      if o.is_limit ∧ 0 < (matches_of e o).1 then
        { buy_orders := map_at bid_before o.price
            (fun q => q ++ [{ o with quantity := (matches_of e o).1 }]) e.order_book.buy_orders
          sell_orders := (matches_of e o).2.1
          order_locations := loc_assign e.order_book.order_locations o.order_id (o.price, true) }
      else { e.order_book with sell_orders := (matches_of e o).2.1 } := by
  rw [settle_book]
  by_cases hc : o.is_limit ∧ 0 < (matches_of e o).1
  · have h1 : Order.is_limit { o with quantity := (matches_of e o).1 } = true := hc.1
    have h2 : Order.is_buy { o with quantity := (matches_of e o).1 } = true := hb
    simp only [hb, hc, and_self, if_true, OrderBook.add_order, h1, h2, Bool.not_true,
      Bool.false_eq_true, if_false]
  · simp only [hb, hc, if_true, if_false]

theorem settle_book_sell (e : MatchingEngine) (o : Order) (hb : o.is_buy = false) :
    (settle e o).2.order_book =
      if o.is_limit ∧ 0 < (matches_of e o).1 then
        { buy_orders := (matches_of e o).2.1
          sell_orders := map_at ask_before o.price
            (fun q => q ++ [{ o with quantity := (matches_of e o).1 }]) e.order_book.sell_orders
          order_locations := loc_assign e.order_book.order_locations o.order_id (o.price, false) }
      else { e.order_book with buy_orders := (matches_of e o).2.1 } := by
  rw [settle_book]
  by_cases hc : o.is_limit ∧ 0 < (matches_of e o).1
  · have h1 : Order.is_limit { o with quantity := (matches_of e o).1 } = true := hc.1
    have h2 : Order.is_buy { o with quantity := (matches_of e o).1 } = false := hb
    simp only [hb, hc, and_self, if_true, OrderBook.add_order, h1, h2, Bool.not_true,
      Bool.false_eq_true, if_false]
  · simp only [hb, hc, if_false, Bool.false_eq_true]

theorem settle_opp (e : MatchingEngine) (o : Order) :
    opp_levels (settle e o).2.order_book o = (matches_of e o).2.1 := by
  by_cases hb : o.is_buy = true
  · rw [settle_book_buy e o hb]
    simp only [opp_levels, hb, if_true]
    split <;> rfl
  · have hb1 : o.is_buy = false := by simpa using hb
    rw [settle_book_sell e o hb1]
    simp only [opp_levels, hb1, Bool.false_eq_true, if_false]
    split <;> rfl

theorem settle_own (e : MatchingEngine) (o : Order) :
    own_levels (settle e o).2.order_book o =
      if o.is_limit ∧ 0 < (matches_of e o).1 then
        map_at (if o.is_buy then bid_before else ask_before) o.price
          (fun q => q ++ [{ o with quantity := (matches_of e o).1 }])
          (own_levels e.order_book o)
      else own_levels e.order_book o := by
  by_cases hb : o.is_buy = true
  · rw [settle_book_buy e o hb]
    simp only [own_levels, hb, if_true]
    split <;> rfl
  · have hb1 : o.is_buy = false := by simpa using hb
    rw [settle_book_sell e o hb1]
    simp only [own_levels, hb1, Bool.false_eq_true, if_false]
    split <;> rfl

theorem settle_loc (e : MatchingEngine) (o : Order) :
    (settle e o).2.order_book.order_locations =
      if o.is_limit ∧ 0 < (matches_of e o).1 then
        loc_assign e.order_book.order_locations o.order_id (o.price, o.is_buy)
      else e.order_book.order_locations := by
  by_cases hb : o.is_buy = true
  · rw [settle_book_buy e o hb, hb]
    split <;> rfl
  · have hb1 : o.is_buy = false := by simpa using hb
    rw [settle_book_sell e o hb1, hb1]
    split <;> rfl

theorem settle_fills (e : MatchingEngine) (o : Order) :
    (settle e o).1 = (matches_of e o).2.2.map (fill_of o) := rfl

/-- What is left of the incoming quantity is the quantity minus the fills. -/
theorem settle_left (e : MatchingEngine) (o : Order) :
    (matches_of e o).1 = o.quantity - fills_total (settle e o).1 := by
  rw [settle_fills, fills_total_map]
  exact sweep_left _ _ _

/-- An order resting after the call is the new rest of the incoming order or carries the
id of an order that rested before. -/
theorem settle_resting_ids {used : List Nat} {e : MatchingEngine} (h : Inv used e.order_book)
    (o : Order) : ∀ y ∈ (settle e o).2.order_book.resting,
      ((o.is_limit ∧ 0 < (matches_of e o).1) ∧ y = { o with quantity := (matches_of e o).1 }) ∨
      y.order_id ∈ used := by
  intro y hy
  have hy1 := (settle_resting e o).subset hy
  rcases List.mem_append.mp hy1 with h1 | h1
  · left
    split at h1
    · rename_i hc
      exact ⟨hc, by simpa using h1⟩
    · simp at h1
  · right
    have hids : y.order_id ∈ (side_orders (opp_levels e.order_book o) ++
        side_orders (own_levels e.order_book o)).map Order.order_id := by
      rw [List.map_append]
      rcases List.mem_append.mp h1 with h2 | h2
      · exact List.mem_append_left _
          ((sweep_ids _ _ _).subset (List.mem_map_of_mem Order.order_id h2))
      · exact List.mem_append_right _ (List.mem_map_of_mem Order.order_id h2)
    obtain ⟨z, hz, hzy⟩ := List.mem_map.mp hids
    rw [← hzy]
    exact h.id_used ((resting_perm_sides e.order_book o).symm.subset hz)

theorem foldl_lengths (m : List Level) : ∀ acc : Nat,
    m.foldl (fun count l => count + l.2.length) acc = acc + (side_orders m).length := by
  induction m with
  | nil => intro acc; simp
  | cons l rest ih =>
    intro acc
    rw [List.foldl_cons, ih]
    simp only [side_orders_cons, List.length_append]
    omega

theorem total_orders_eq (b : OrderBook) : b.total_orders = b.resting.length := by
  simp only [OrderBook.total_orders, foldl_lengths, OrderBook.resting, List.length_append]
  omega

/-- C8. After a Market order, filled or not, no order with its id is in the book or in the
id index, its own side is exactly as before, and the number of resting orders has not grown. -/
theorem C8_market_order_never_rests (used : List Nat) (e : MatchingEngine) (o : Order)
    (hr : Reachable used e) (hf : o.order_id ∉ used) (ht : o.type = "MARKET") :
    ∃ fills e1, e.process_order o = some (fills, e1) ∧
      ¬ e1.order_book.is_resting o.order_id ∧
      e1.order_book.order_locations o.order_id = none ∧
      own_levels e1.order_book o = own_levels e.order_book o ∧
      e1.order_book.total_orders ≤ e.order_book.total_orders := by
  have hinv := hr.inv
  have hc : ¬ (o.is_limit ∧ 0 < (matches_of e o).1) := by
    rw [not_is_limit_of_type ht]; simp
  refine ⟨(settle e o).1, (settle e o).2, process_order_eq e o (Or.inr ht), ?_, ?_, ?_, ?_⟩
  · rintro ⟨y, hy, hyid⟩
    rcases settle_resting_ids hinv o y hy with ⟨h1, -⟩ | h1
    · exact hc h1
    · exact hf (hyid ▸ h1)
  · rw [settle_loc, if_neg hc]
    by_contra hne
    exact hf (hinv.loc_used _ hne)
  · rw [settle_own, if_neg hc]
  · rw [total_orders_eq, total_orders_eq, (settle_resting e o).length_eq,
      (resting_perm_sides e.order_book o).length_eq, if_neg hc]
    have h1 := (sweep_ids (stop_of o) (opp_levels e.order_book o) o.quantity).length_le
    simp only [List.length_map] at h1
    simp only [List.nil_append, List.length_append]
    unfold matches_of
    omega

theorem C8_market_order_never_rests_witness :
    ∃ fills e1, demo_engine.process_order ⟨5, 0, 30, "BUY", "MARKET"⟩ = some (fills, e1) ∧
      ¬ e1.order_book.is_resting (⟨5, 0, 30, "BUY", "MARKET"⟩ : Order).order_id ∧
      e1.order_book.order_locations (⟨5, 0, 30, "BUY", "MARKET"⟩ : Order).order_id = none ∧
      own_levels e1.order_book ⟨5, 0, 30, "BUY", "MARKET"⟩ =
        own_levels demo_engine.order_book ⟨5, 0, 30, "BUY", "MARKET"⟩ ∧
      e1.order_book.total_orders ≤ demo_engine.order_book.total_orders :=
  C8_market_order_never_rests [4, 3, 2, 1] demo_engine ⟨5, 0, 30, "BUY", "MARKET"⟩
    demo_reachable (by decide) (by decide)

theorem dropWhile_of_sorted (R : Int → Int → Prop) (c : Level → Bool)
    (hc : ∀ a b : Level, R a.1 b.1 → c a = false → c b = false) :
    ∀ m : List Level, (m.map Prod.fst).Pairwise R → ∀ l ∈ m.dropWhile c, c l = false := by
  intro m
  induction m with
  | nil => intro _ l hl; simp at hl
  | cons a rest ih =>
    intro h l hl
    simp only [List.map_cons, List.pairwise_cons] at h
    by_cases ha : c a = true
    · simp only [List.dropWhile_cons, ha, if_true] at hl
      exact ih h.2 l hl
    · have ha1 : c a = false := by simpa using ha
      simp only [List.dropWhile_cons, ha1, Bool.false_eq_true, if_false] at hl
      rcases List.mem_cons.mp hl with h1 | h1
      · rw [h1]; exact ha1
      · exact hc a l (h.1 l.1 (List.mem_map_of_mem Prod.fst h1)) ha1

/-- C9. A Limit order that rests after the call does not cross the opposite side: every
remaining ask level is priced above a resting Buy, every remaining bid level below a
resting Sell. -/
theorem C9_resting_limit_does_not_cross (used : List Nat) (e : MatchingEngine) (o : Order)
    (hr : Reachable used e) (hf : o.order_id ∉ used) (ht : o.type = "LIMIT") :
    ∃ fills e1, e.process_order o = some (fills, e1) ∧
      (e1.order_book.is_resting o.order_id →
        (o.side = "BUY" → ∀ l ∈ e1.order_book.sell_orders, o.price < l.1) ∧
        (o.side = "SELL" → ∀ l ∈ e1.order_book.buy_orders, l.1 < o.price)) := by
  have hinv := hr.inv
  refine ⟨(settle e o).1, (settle e o).2, process_order_eq e o (Or.inl ht), ?_⟩
  rintro ⟨y, hy, hyid⟩
  have hpos : 0 < (matches_of e o).1 := by
    rcases settle_resting_ids hinv o y hy with ⟨⟨-, h1⟩, -⟩ | h1
    · exact h1
    · exact absurd (hyid ▸ h1) hf
  have hdrop := sweep_left_pos (stop_of o) (opp_levels e.order_book o) o.quantity hpos
  have hopp := settle_opp e o
  unfold matches_of at hopp
  rw [hdrop] at hopp
  constructor
  · intro hs l hl
    have hb := is_buy_of_side hs
    simp only [opp_levels, hb, if_true] at hopp
    rw [hopp] at hl
    have := dropWhile_of_sorted (· < ·) (fun l => !stop_of o l.1) (by
      intro a c hac ha
      simp only [stop_of, is_limit_of_type ht, hb, if_true, Bool.not_eq_false',
        decide_eq_true_eq] at ha ⊢
      omega) _ hinv.sell_sorted l hl
    simpa [stop_of, is_limit_of_type ht, hb] using this
  · intro hs l hl
    have hb := not_is_buy_of_side hs
    simp only [opp_levels, hb, Bool.false_eq_true, if_false] at hopp
    rw [hopp] at hl
    have := dropWhile_of_sorted (· > ·) (fun l => !stop_of o l.1) (by
      intro a c hac ha
      simp only [stop_of, is_limit_of_type ht, hb, if_true, Bool.not_eq_false',
        decide_eq_true_eq, Bool.false_eq_true, if_false, gt_iff_lt] at ha hac ⊢
      omega) _ hinv.buy_sorted l hl
    simpa [stop_of, is_limit_of_type ht, hb] using this

theorem C9_resting_limit_does_not_cross_witness :
    ∃ fills e1, demo_engine.process_order ⟨5, 100, 20, "BUY", "LIMIT"⟩ = some (fills, e1) ∧
      (e1.order_book.is_resting (⟨5, 100, 20, "BUY", "LIMIT"⟩ : Order).order_id →
        ((⟨5, 100, 20, "BUY", "LIMIT"⟩ : Order).side = "BUY" →
          ∀ l ∈ e1.order_book.sell_orders, (⟨5, 100, 20, "BUY", "LIMIT"⟩ : Order).price < l.1) ∧
        ((⟨5, 100, 20, "BUY", "LIMIT"⟩ : Order).side = "SELL" →
          ∀ l ∈ e1.order_book.buy_orders, l.1 < (⟨5, 100, 20, "BUY", "LIMIT"⟩ : Order).price)) :=
  C9_resting_limit_does_not_cross [4, 3, 2, 1] demo_engine ⟨5, 100, 20, "BUY", "LIMIT"⟩
    demo_reachable (by decide) (by decide)

theorem ids_disjoint {X Y : List Order} (h : ((X ++ Y).map Order.order_id).Nodup)
    {x y : Order} (hx : x ∈ X) (hy : y ∈ Y) : x.order_id ≠ y.order_id := by
  rw [List.map_append] at h
  intro e
  exact List.disjoint_of_nodup_append h (List.mem_map_of_mem Order.order_id hx)
    (e ▸ List.mem_map_of_mem Order.order_id hy)

/-- In a reachable book an order is stored in one level only. -/
theorem Inv.level_unique {used : List Nat} {b : OrderBook} (h : Inv used b) {l l1 : Level}
    (hl : l ∈ b.buy_orders ++ b.sell_orders) (hl1 : l1 ∈ b.buy_orders ++ b.sell_orders)
    {x : Order} (hx : x ∈ l.2) (hx1 : x ∈ l1.2) : l = l1 := by
  rcases List.mem_append.mp hl with h1 | h1 <;> rcases List.mem_append.mp hl1 with h2 | h2
  · have e1 := (h.buy_wf l h1 x hx).2.2.2
    have e2 := (h.buy_wf l1 h2 x hx1).2.2.2
    rw [e1] at e2
    simp only [Option.some.injEq, Prod.mk.injEq, and_true] at e2
    exact List.inj_on_of_nodup_map (sorted_keys_nodup_bid h.buy_sorted) h1 h2 e2
  · have e1 := (h.buy_wf l h1 x hx).2.2.2
    have e2 := (h.sell_wf l1 h2 x hx1).2.2.2
    rw [e1] at e2
    simp at e2
  · have e1 := (h.sell_wf l h1 x hx).2.2.2
    have e2 := (h.buy_wf l1 h2 x hx1).2.2.2
    rw [e1] at e2
    simp at e2
  · have e1 := (h.sell_wf l h1 x hx).2.2.2
    have e2 := (h.sell_wf l1 h2 x hx1).2.2.2
    rw [e1] at e2
    simp only [Option.some.injEq, Prod.mk.injEq, and_true] at e2
    exact List.inj_on_of_nodup_map (sorted_keys_nodup_ask h.sell_sorted) h1 h2 e2

theorem opp_levels_subset (b : OrderBook) (o : Order) :
    ∀ l ∈ opp_levels b o, l ∈ b.buy_orders ++ b.sell_orders := by
  intro l hl
  unfold opp_levels at hl
  split at hl
  · exact List.mem_append_right _ hl
  · exact List.mem_append_left _ hl

/-- Positions in a list cut in two: an element of the first kind found only in the front
part comes before an element of the second kind found only in the back part. -/
theorem order_of_split {α : Type} (F1 F2 : List α) (pA pB : α → Prop)
    (hA : ∀ f ∈ F2, ¬ pA f) (hB : ∀ f ∈ F1, ¬ pB f) :
    ∀ (i j : Nat) (fa fb : α), (F1 ++ F2)[i]? = some fa → (F1 ++ F2)[j]? = some fb →
      pA fa → pB fb → i < j := by
  intro i j fa fb hi hj ha hb
  have h1 : i < F1.length := by
    by_contra hc
    rw [List.getElem?_append_right (not_lt.mp hc)] at hi
    exact hA fa (List.getElem?_mem hi) ha
  have h2 : F1.length ≤ j := by
    by_contra hc
    rw [List.getElem?_append_left (not_le.mp hc)] at hj
    exact hB fb (List.getElem?_mem hj) hb
  omega

/-- C10. FIFO within a level: when an order `B` of a level receives a fill, every order `A`
queued ahead of it in that level has left the book, was filled for its whole quantity, and
all fills against `A` come before all fills against `B` in the returned list. -/
theorem C10_fifo_within_level (used : List Nat) (e : MatchingEngine) (o : Order)
    (hr : Reachable used e) (hv : o.Validated) (hf : o.order_id ∉ used) :
    ∃ fills e1, e.process_order o = some (fills, e1) ∧
      ∀ l ∈ e.order_book.buy_orders ++ e.order_book.sell_orders,
      ∀ (pre mid post : List Order) (A B : Order), l.2 = pre ++ A :: (mid ++ B :: post) →
        (∃ f ∈ fills, f.names B.order_id = true) →
        ¬ e1.order_book.is_resting A.order_id ∧
        fills_naming A.order_id fills = A.quantity ∧
        ∀ (i j : Nat) (fa fb : Fill), fills[i]? = some fa → fills[j]? = some fb →
          fa.names A.order_id = true → fb.names B.order_id = true → i < j := by
  obtain ⟨hs, ht, -, -⟩ := hv.spec
  have hinv := hr.inv
  refine ⟨(settle e o).1, (settle e o).2, process_order_eq e o ht, ?_⟩
  intro l hl pre mid post A B hsplit ⟨f, hfm, hfB⟩
  -- the two orders rest in the book
  have hAl : A ∈ l.2 := by rw [hsplit]; simp
  have hBl : B ∈ l.2 := by rw [hsplit]; simp
  have hmemrest : ∀ x ∈ l.2, x ∈ e.order_book.resting := by
    intro x hx
    rcases List.mem_append.mp hl with h1 | h1
    · exact List.mem_append_left _ (mem_side_orders.mpr ⟨l, h1, hx⟩)
    · exact List.mem_append_right _ (mem_side_orders.mpr ⟨l, h1, hx⟩)
  have hAused : A.order_id ∈ used := hinv.id_used (hmemrest A hAl)
  have hBused : B.order_id ∈ used := hinv.id_used (hmemrest B hBl)
  have hoA : o.order_id ≠ A.order_id := fun h => hf (h ▸ hAused)
  have hoB : o.order_id ≠ B.order_id := fun h => hf (h ▸ hBused)
  -- the walk as one run of the inner loop
  obtain ⟨-, hevs, hleft⟩ := sweep_flat (stop_of o) (opp_levels e.order_book o) o.quantity
  have hsp := side_orders_split (fun l => !stop_of o l.1) (opp_levels e.order_book o)
  have hndall : ((side_orders (opp_levels e.order_book o) ++
      side_orders (own_levels e.order_book o)).map Order.order_id).Nodup :=
    ((resting_perm_sides e.order_book o).map Order.order_id).nodup_iff.mp hinv.nodup
  have hndopp : ((side_orders (opp_levels e.order_book o)).map Order.order_id).Nodup := by
    rw [List.map_append] at hndall
    exact (List.nodup_append.mp hndall).1
  -- the matched order is `B`, and `B` sits in a level the walk went through
  obtain ⟨ev, hev, rfl⟩ := List.mem_map.mp hfm
  have hevopp := sweep_ev_mem _ _ _ ev hev
  have hevB : ev.1.order_id = B.order_id := by
    rcases (fill_of_names hinv hs hevopp B.order_id).mp hfB with h | h
    · exact absurd h hoB
    · exact h
  have hevEq : ev.1 = B :=
    List.inj_on_of_nodup_map hinv.nodup (hinv.mem_opp o hevopp) (hmemrest B hBl) hevB
  have hev1 : ev ∈ (drain o.quantity (side_orders ((opp_levels e.order_book o).takeWhile
      (fun l => !stop_of o l.1)))).2.2 := by
    rw [← hevs]; exact hev
  have hBT := drain_ev_mem _ _ ev hev1
  rw [hevEq] at hBT
  obtain ⟨l1, hl1, hBl1⟩ := mem_side_orders.mp hBT
  have hl1opp : l1 ∈ opp_levels e.order_book o := (List.takeWhile_sublist _).subset hl1
  have hll1 : l = l1 :=
    hinv.level_unique hl (opp_levels_subset _ _ l1 hl1opp) hBl hBl1
  subst hll1
  obtain ⟨T1, T2, hT⟩ := List.append_of_mem hl1
  have hflat : side_orders ((opp_levels e.order_book o).takeWhile (fun l => !stop_of o l.1)) =
      (side_orders T1 ++ (pre ++ A :: mid)) ++ B :: (post ++ side_orders T2) := by
    rw [hT, side_orders_append, side_orders_cons, hsplit]
    simp
  rw [hflat] at hev1 hleft hsp
  have hndT : (((side_orders T1 ++ (pre ++ A :: mid)) ++ B :: (post ++ side_orders T2)).map
      Order.order_id).Nodup := by
    rw [hsp, List.map_append] at hndopp
    exact (List.nodup_append.mp hndopp).1
  have hfront : ∀ x ∈ side_orders T1 ++ (pre ++ A :: mid), x.order_id ≠ B.order_id :=
    fun x hx => ids_disjoint hndT hx (List.mem_cons_self _ _)
  have hAfront : A ∈ side_orders T1 ++ (pre ++ A :: mid) := by simp
  have hAback : ∀ y ∈ B :: (post ++ side_orders T2), y.order_id ≠ A.order_id :=
    fun y hy h => ids_disjoint hndT hAfront hy h.symm
  obtain ⟨⟨evs2, hE, hE2⟩, hQ⟩ := drain_fifo B (post ++ side_orders T2)
    (side_orders T1 ++ (pre ++ A :: mid)) o.quantity hfront ⟨ev, hev1, hevB⟩
  have hbackopp : ∀ y ∈ B :: (post ++ side_orders T2),
      y ∈ side_orders (opp_levels e.order_book o) := by
    intro y hy
    rw [hsp]
    exact List.mem_append_left _ (List.mem_append_right _ hy)
  have hfrontopp : ∀ y ∈ side_orders T1 ++ (pre ++ A :: mid),
      y ∈ side_orders (opp_levels e.order_book o) := by
    intro y hy
    rw [hsp]
    exact List.mem_append_left _ (List.mem_append_left _ hy)
  -- `A` has left the book
  have hgone : ¬ (settle e o).2.order_book.is_resting A.order_id := by
    rintro ⟨y, hy, hyA⟩
    rcases List.mem_append.mp ((settle_resting e o).subset hy) with h1 | h1
    · split at h1
      · have : y = { o with quantity := (matches_of e o).1 } := by simpa using h1
        rw [this] at hyA
        exact hoA hyA
      · simp at h1
    · rcases List.mem_append.mp h1 with h2 | h2
      · unfold matches_of at h2
        rw [hleft] at h2
        rcases List.mem_append.mp h2 with h3 | h3
        · obtain ⟨z, hz, hzy⟩ := List.mem_map.mp (hQ y h3)
          exact hAback z hz (hzy.trans hyA)
        · rw [hsp] at hndopp
          exact ids_disjoint hndopp (List.mem_append_left _ hAfront) h3 hyA.symm
      · exact ids_disjoint hndall (hfrontopp A hAfront) h2 hyA.symm
  refine ⟨hgone, ?_, ?_⟩
  · have h1 : fills_naming A.order_id (settle e o).1 = ev_of A.order_id (matches_of e o).2.2 :=
      fills_naming_map hinv hs A.order_id hoA _ (sweep_ev_mem _ _ _)
    have h2 := settle_conserve e o A.order_id hoA
    have h3 : qty_of A.order_id (settle e o).2.order_book.resting = 0 :=
      qty_of_eq_zero _ _ (fun y hy hyA => hgone ⟨y, hy, hyA⟩)
    rw [h1, ← qty_of_mem hinv.nodup (hmemrest A hAl)]
    omega
  · have hfills : (settle e o).1 =
        ((side_orders T1 ++ (pre ++ A :: mid)).map (fun x => (x, x.quantity))).map (fill_of o) ++
          evs2.map (fill_of o) := by
      rw [settle_fills]
      unfold matches_of
      rw [hevs, hflat, hE, List.map_append]
    rw [hfills]
    refine order_of_split _ _ (fun f : Fill => f.names A.order_id = true)
      (fun f : Fill => f.names B.order_id = true) ?_ ?_
    · intro f1 hf1 hn
      obtain ⟨ev1, hev1m, rfl⟩ := List.mem_map.mp hf1
      have hmem := hE2 ev1 hev1m
      rcases (fill_of_names hinv hs (hbackopp _ hmem) A.order_id).mp hn with h | h
      · exact hoA h
      · exact hAback _ hmem h
    · intro f1 hf1 hn
      obtain ⟨ev1, hev1m, rfl⟩ := List.mem_map.mp hf1
      obtain ⟨x, hx, rfl⟩ := List.mem_map.mp hev1m
      rcases (fill_of_names hinv hs (hfrontopp _ hx) B.order_id).mp hn with h | h
      · exact hoB h
      · exact hfront x hx h

theorem C10_fifo_within_level_witness :
    ∃ fills e1, demo_engine.process_order ⟨5, 100, 12, "BUY", "LIMIT"⟩ = some (fills, e1) ∧
      ∀ l ∈ demo_engine.order_book.buy_orders ++ demo_engine.order_book.sell_orders,
      ∀ (pre mid post : List Order) (A B : Order), l.2 = pre ++ A :: (mid ++ B :: post) →
        (∃ f ∈ fills, f.names B.order_id = true) →
        ¬ e1.order_book.is_resting A.order_id ∧
        fills_naming A.order_id fills = A.quantity ∧
        ∀ (i j : Nat) (fa fb : Fill), fills[i]? = some fa → fills[j]? = some fb →
          fa.names A.order_id = true → fb.names B.order_id = true → i < j :=
  C10_fifo_within_level [4, 3, 2, 1] demo_engine ⟨5, 100, 12, "BUY", "LIMIT"⟩
    demo_reachable (by decide) (by decide)

/-- C13. For an id without an entry in the id index, `cancel_order` returns false and the
book (bid levels, ask levels and index) is exactly what it was. -/
theorem C13_cancel_unknown_id_is_noop (b : OrderBook) (order_id : Nat)
    (h : b.order_locations order_id = none) : b.cancel_order order_id = (false, b) := by
  simp [OrderBook.cancel_order, h]

theorem C13_cancel_unknown_id_is_noop_witness :
    demo_engine.order_book.cancel_order 999 = (false, demo_engine.order_book) :=
  C13_cancel_unknown_id_is_noop demo_engine.order_book 999 (by decide)

/-- C17 (the code departs from the claim). The sell order 1 is filled completely by the buy
order 2, its index entry stays behind, and `modify_order 1 5` then creates an empty ask
level at 100 through `sell_orders[price]`. In this reachable state no Sell order rests, yet
`get_top_of_book` reports a best ask of 100 with quantity 0. -/
theorem C17_top_of_book_reports_empty_level :
    ∃ e, run_orders MatchingEngine.init
        [⟨1, 100, 10, "SELL", "LIMIT"⟩, ⟨2, 100, 10, "BUY", "LIMIT"⟩] = some e ∧
      Reachable [2, 1] (e.modify_order 1 5).2 ∧
      side_orders (e.modify_order 1 5).2.order_book.sell_orders = [] ∧
      (e.modify_order 1 5).2.order_book.get_top_of_book.best_ask = some 100 ∧
      (e.modify_order 1 5).2.order_book.get_top_of_book.ask_quantity = some 0 := by
  have h1 := process_order_eq MatchingEngine.init ⟨1, 100, 10, "SELL", "LIMIT"⟩ (Or.inl rfl)
  have h2 := process_order_eq (settle MatchingEngine.init ⟨1, 100, 10, "SELL", "LIMIT"⟩).2
    ⟨2, 100, 10, "BUY", "LIMIT"⟩ (Or.inl rfl)
  refine ⟨(settle (settle MatchingEngine.init ⟨1, 100, 10, "SELL", "LIMIT"⟩).2
      ⟨2, 100, 10, "BUY", "LIMIT"⟩).2, by simp only [run_orders, h1, h2], ?_, by decide,
    by decide, by decide⟩
  exact Reachable.modify 1 5 (Reachable.process _
    (Reachable.process _ Reachable.init (by decide) (by decide) h1) (by decide) (by decide) h2)

/-- C18 (the code departs from the claim). The buy order 1 is filled completely by the sell
order 2, the buy order 3 then rests at 99, and `modify_order 1 5` creates an empty bid level
at 100 in front of it. In this reachable state a Buy order rests at one price, yet
`get_bid_levels 5` stops at the empty level and returns no entry. -/
theorem C18_bid_levels_stop_at_empty_level :
    ∃ e, run_orders MatchingEngine.init
        [⟨1, 100, 10, "BUY", "LIMIT"⟩, ⟨2, 100, 10, "SELL", "LIMIT"⟩,
          ⟨3, 99, 5, "BUY", "LIMIT"⟩] = some e ∧
      Reachable [3, 2, 1] (e.modify_order 1 5).2 ∧
      side_orders (e.modify_order 1 5).2.order_book.buy_orders = [⟨3, 99, 5, "BUY", "LIMIT"⟩] ∧
      (e.modify_order 1 5).2.order_book.get_bid_levels 5 = [] := by
  have h1 := process_order_eq MatchingEngine.init ⟨1, 100, 10, "BUY", "LIMIT"⟩ (Or.inl rfl)
  have h2 := process_order_eq (settle MatchingEngine.init ⟨1, 100, 10, "BUY", "LIMIT"⟩).2
    ⟨2, 100, 10, "SELL", "LIMIT"⟩ (Or.inl rfl)
  have h3 := process_order_eq (settle (settle MatchingEngine.init
    ⟨1, 100, 10, "BUY", "LIMIT"⟩).2 ⟨2, 100, 10, "SELL", "LIMIT"⟩).2
    ⟨3, 99, 5, "BUY", "LIMIT"⟩ (Or.inl rfl)
  refine ⟨(settle (settle (settle MatchingEngine.init ⟨1, 100, 10, "BUY", "LIMIT"⟩).2
      ⟨2, 100, 10, "SELL", "LIMIT"⟩).2 ⟨3, 99, 5, "BUY", "LIMIT"⟩).2,
    by simp only [run_orders, h1, h2, h3], ?_, by decide, by decide⟩
  exact Reachable.modify 1 5 (Reachable.process _ (Reachable.process _
    (Reachable.process _ Reachable.init (by decide) (by decide) h1) (by decide) (by decide) h2)
    (by decide) (by decide) h3)

/-- C19. The validating constructor fails exactly when the side is neither BUY nor SELL, or
the type is neither LIMIT nor MARKET, or the quantity is not positive, or the order is a
Limit order with a non-positive price; otherwise it succeeds and the order carries the
arguments. -/
theorem C19_constructor_validation (id : Nat) (p qty : Int) (s t : String) :
    ((∃ msg, Order.new id p qty s t = .error msg) ↔
      ((s ≠ "BUY" ∧ s ≠ "SELL") ∨ (t ≠ "LIMIT" ∧ t ≠ "MARKET") ∨ qty ≤ 0 ∨
        (t = "LIMIT" ∧ p ≤ 0))) ∧
    ((∃ o, Order.new id p qty s t = .ok o) ↔
      ¬ ((s ≠ "BUY" ∧ s ≠ "SELL") ∨ (t ≠ "LIMIT" ∧ t ≠ "MARKET") ∨ qty ≤ 0 ∨
        (t = "LIMIT" ∧ p ≤ 0))) ∧
    (∀ o, Order.new id p qty s t = .ok o →
      o.order_id = id ∧ o.price = p ∧ o.quantity = qty ∧ o.side = s ∧ o.type = t) := by
  unfold Order.new
  by_cases h1 : s ≠ "BUY" ∧ s ≠ "SELL"
  · simp [h1]
  · by_cases h2 : t ≠ "LIMIT" ∧ t ≠ "MARKET"
    · simp [h1, h2]
    · by_cases h3 : qty ≤ 0
      · simp [h1, h2, h3]
      · by_cases h4 : t = "LIMIT" ∧ p ≤ 0
        · simp [h1, h2, h3, h4]
        · simp only [h1, h2, h3, h4, if_false, false_or, or_false, not_false_eq_true,
            iff_true, Except.ok.injEq, exists_eq', true_and, reduceCtorEq, exists_false]
          intro o ho
          subst ho
          exact ⟨rfl, rfl, rfl, rfl, rfl⟩

/-- C20. For a positive quantity and a side BUY or SELL, `create_market_order` returns an
order with price 0 and type MARKET (`is_market`, not `is_limit`), and for a positive price
`create_limit_order` returns an order with that price and type LIMIT (`is_limit`, not
`is_market`); in both, `is_buy` holds exactly for side BUY, `is_sell` exactly for side SELL,
and exactly one of the two holds. -/
theorem C20_factory_orders (id : Nat) (price quantity : Int) (side : String)
    (hq : 0 < quantity) (hs : side = "BUY" ∨ side = "SELL") :
    (∃ o, Order.create_market_order id quantity side = .ok o ∧
      o.order_id = id ∧ o.quantity = quantity ∧ o.side = side ∧
      o.price = 0 ∧ o.type = "MARKET" ∧ o.is_market = true ∧ o.is_limit = false ∧
      (o.is_buy = true ↔ side = "BUY") ∧ (o.is_sell = true ↔ side = "SELL") ∧
      ((o.is_buy = true ∧ o.is_sell = false) ∨ (o.is_buy = false ∧ o.is_sell = true))) ∧
    (0 < price → ∃ o, Order.create_limit_order id price quantity side = .ok o ∧
      o.order_id = id ∧ o.quantity = quantity ∧ o.side = side ∧
      o.price = price ∧ o.type = "LIMIT" ∧ o.is_limit = true ∧ o.is_market = false ∧
      (o.is_buy = true ↔ side = "BUY") ∧ (o.is_sell = true ↔ side = "SELL") ∧
      ((o.is_buy = true ∧ o.is_sell = false) ∨ (o.is_buy = false ∧ o.is_sell = true))) := by
  have hq1 : ¬ quantity ≤ 0 := not_le.mpr hq
  constructor
  · refine ⟨⟨id, 0, quantity, side, "MARKET"⟩, ?_, rfl, rfl, rfl, rfl, rfl, ?_, ?_, ?_, ?_, ?_⟩
    · rcases hs with hs | hs <;> subst hs <;>
        simp [Order.create_market_order, Order.new, hq1]
    · simp [Order.is_market]
    · simp [Order.is_limit]
    · simp [Order.is_buy]
    · simp [Order.is_sell]
    · rcases hs with hs | hs <;> subst hs <;> simp [Order.is_buy, Order.is_sell]
  · intro hp
    have hp1 : ¬ price ≤ 0 := not_le.mpr hp
    refine ⟨⟨id, price, quantity, side, "LIMIT"⟩, ?_, rfl, rfl, rfl, rfl, rfl, ?_, ?_, ?_, ?_, ?_⟩
    · rcases hs with hs | hs <;> subst hs <;>
        simp [Order.create_limit_order, Order.new, hq1, hp1]
    · simp [Order.is_limit]
    · simp [Order.is_market]
    · simp [Order.is_buy]
    · simp [Order.is_sell]
    · rcases hs with hs | hs <;> subst hs <;> simp [Order.is_buy, Order.is_sell]

theorem C20_factory_orders_witness :
    (∃ o, Order.create_market_order 2 100 "SELL" = .ok o ∧
      o.order_id = 2 ∧ o.quantity = 100 ∧ o.side = "SELL" ∧
      o.price = 0 ∧ o.type = "MARKET" ∧ o.is_market = true ∧ o.is_limit = false ∧
      (o.is_buy = true ↔ "SELL" = "BUY") ∧ (o.is_sell = true ↔ "SELL" = "SELL") ∧
      ((o.is_buy = true ∧ o.is_sell = false) ∨ (o.is_buy = false ∧ o.is_sell = true))) ∧
    ((0 : Int) < 7 → ∃ o, Order.create_limit_order 2 7 100 "SELL" = .ok o ∧
      o.order_id = 2 ∧ o.quantity = 100 ∧ o.side = "SELL" ∧
      o.price = 7 ∧ o.type = "LIMIT" ∧ o.is_limit = true ∧ o.is_market = false ∧
      (o.is_buy = true ↔ "SELL" = "BUY") ∧ (o.is_sell = true ↔ "SELL" = "SELL") ∧
      ((o.is_buy = true ∧ o.is_sell = false) ∨ (o.is_buy = false ∧ o.is_sell = true))) :=
  C20_factory_orders 2 7 100 "SELL" (by decide) (by decide)

/-- C21. `add_order` ignores an order whose type is not LIMIT (every Market order is one):
the book returned is the book given, so bid levels, ask levels, id index, `total_orders`
and `empty` are unchanged. -/
theorem C21_add_order_ignores_non_limit (b : OrderBook) (o : Order) (h : o.type ≠ "LIMIT") :
    b.add_order o = b ∧
    (b.add_order o).buy_orders = b.buy_orders ∧
    (b.add_order o).sell_orders = b.sell_orders ∧
    (b.add_order o).order_locations = b.order_locations ∧
    (b.add_order o).total_orders = b.total_orders ∧
    (b.add_order o).empty = b.empty := by
  have hl : o.is_limit = false := by simp [Order.is_limit, h]
  have heq : b.add_order o = b := by simp [OrderBook.add_order, hl]
  rw [heq]
  exact ⟨rfl, rfl, rfl, rfl, rfl, rfl⟩

theorem C21_add_order_ignores_non_limit_witness :
    demo_engine.order_book.add_order ⟨7, 0, 5, "BUY", "MARKET"⟩ = demo_engine.order_book ∧
    (demo_engine.order_book.add_order ⟨7, 0, 5, "BUY", "MARKET"⟩).buy_orders =
      demo_engine.order_book.buy_orders ∧
    (demo_engine.order_book.add_order ⟨7, 0, 5, "BUY", "MARKET"⟩).sell_orders =
      demo_engine.order_book.sell_orders ∧
    (demo_engine.order_book.add_order ⟨7, 0, 5, "BUY", "MARKET"⟩).order_locations =
      demo_engine.order_book.order_locations ∧
    (demo_engine.order_book.add_order ⟨7, 0, 5, "BUY", "MARKET"⟩).total_orders =
      demo_engine.order_book.total_orders ∧
    (demo_engine.order_book.add_order ⟨7, 0, 5, "BUY", "MARKET"⟩).empty =
      demo_engine.order_book.empty :=
  C21_add_order_ignores_non_limit demo_engine.order_book ⟨7, 0, 5, "BUY", "MARKET"⟩
    (by decide)

/-- C26. Every order resting in a reachable book has a quantity greater than 0. -/
theorem C26_resting_quantity_positive (used : List Nat) (e : MatchingEngine)
    (hr : Reachable used e) : ∀ o ∈ e.order_book.resting, 0 < o.quantity :=
  hr.inv.qty_pos

theorem C26_resting_quantity_positive_witness :
    Reachable [4, 3, 2, 1] demo_engine ∧ demo_engine.order_book.resting ≠ [] ∧
    demo_engine.order_book.resting.all (fun o => decide (0 < o.quantity)) = true :=
  ⟨demo_reachable, by decide, List.all_eq_true.mpr (fun o ho => decide_eq_true
    (C26_resting_quantity_positive [4, 3, 2, 1] demo_engine demo_reachable o ho))⟩

theorem qty_sum_perm {a b : List Order} (h : a.Perm b) : qty_sum a = qty_sum b := by
  unfold qty_sum
  exact (h.map _).sum_eq

theorem drain_conserve_total : ∀ (l : List Order) (r : Int),
    ev_total (drain r l).2.2 + qty_sum (drain r l).2.1 = qty_sum l := by
  intro l
  induction l with
  | nil => intro r; simp [drain, ev_total, qty_sum]
  | cons p rest ih =>
    intro r
    by_cases hr : 0 < r
    · by_cases hp : p.quantity ≤ r
      · have := ih (r - p.quantity)
        simp only [drain, hr, hp, if_true, ev_total, qty_sum, List.map_cons, List.sum_cons]
          at this ⊢
        omega
      · simp only [drain, hr, hp, if_true, if_false, ev_total, qty_sum, List.map_cons,
          List.sum_cons, List.map_nil, List.sum_nil]
        ring
    · simp [drain, hr, ev_total]

theorem sweep_conserve_total (stop : Int → Bool) (m : List Level) (r : Int) :
    ev_total (sweep stop r m).2.2 + qty_sum (side_orders (sweep stop r m).2.1) =
      qty_sum (side_orders m) := by
  obtain ⟨-, h2, h3⟩ := sweep_flat stop m r
  rw [h2, h3, qty_sum_append, ← add_assoc, drain_conserve_total, ← qty_sum_append,
    ← side_orders_split]

/-- C30. Quantity accounting over one `process_order` call with incoming quantity `q` and
fills summing to `f`: the quantity resting in the book becomes the old total plus `q` minus
`2 f` for a Limit order and the old total minus `f` for a Market order, and the quantity
resting on the opposite side goes down by exactly `f`. -/
theorem C30_quantity_accounting (used : List Nat) (e : MatchingEngine) (o : Order)
    (hr : Reachable used e) (hv : o.Validated) :
    ∃ fills e1, e.process_order o = some (fills, e1) ∧
      (o.type = "LIMIT" → e1.order_book.total_quantity =
        e.order_book.total_quantity + o.quantity - 2 * fills_total fills) ∧
      (o.type = "MARKET" → e1.order_book.total_quantity =
        e.order_book.total_quantity - fills_total fills) ∧
      qty_sum (side_orders (opp_levels e1.order_book o)) =
        qty_sum (side_orders (opp_levels e.order_book o)) - fills_total fills := by
  obtain ⟨-, ht, hq, -⟩ := hv.spec
  have hinv := hr.inv
  have hpos : ∀ x ∈ side_orders (opp_levels e.order_book o), 0 < x.quantity :=
    fun x hx => hinv.qty_pos x (hinv.mem_opp o hx)
  have hleft := settle_left e o
  have hcons := sweep_conserve_total (stop_of o) (opp_levels e.order_book o) o.quantity
  have hft : fills_total (settle e o).1 = ev_total (matches_of e o).2.2 := by
    rw [settle_fills, fills_total_map]
  have hle : fills_total (settle e o).1 ≤ o.quantity := by
    rw [hft]
    unfold matches_of
    rw [sweep_total _ _ _ hpos (le_of_lt hq)]
    exact min_le_left _ _
  have hafter : (settle e o).2.order_book.total_quantity =
      qty_sum (if o.is_limit ∧ 0 < (matches_of e o).1 then
        [{ o with quantity := (matches_of e o).1 }] else []) +
      (qty_sum (side_orders (matches_of e o).2.1) +
        qty_sum (side_orders (own_levels e.order_book o))) := by
    unfold OrderBook.total_quantity
    rw [qty_sum_perm (settle_resting e o), qty_sum_append, qty_sum_append]
  have hbefore : e.order_book.total_quantity =
      qty_sum (side_orders (opp_levels e.order_book o)) +
        qty_sum (side_orders (own_levels e.order_book o)) := by
    unfold OrderBook.total_quantity
    rw [qty_sum_perm (resting_perm_sides e.order_book o), qty_sum_append]
  unfold matches_of at hft hafter hleft
  refine ⟨(settle e o).1, (settle e o).2, process_order_eq e o ht, ?_, ?_, ?_⟩
  · intro htl
    rw [hafter, hbefore]
    by_cases hc : 0 < (sweep (stop_of o) o.quantity (opp_levels e.order_book o)).1
    · rw [if_pos ⟨is_limit_of_type htl, hc⟩]
      simp only [qty_sum, List.map_cons, List.map_nil, List.sum_cons, List.sum_nil] at hcons ⊢
      omega
    · rw [if_neg (fun h => hc h.2)]
      simp only [qty_sum, List.map_nil, List.sum_nil] at hcons ⊢
      omega
  · intro htm
    rw [hafter, hbefore, if_neg (fun h => by
      rw [not_is_limit_of_type htm] at h; exact absurd h.1 (by simp))]
    simp only [qty_sum, List.map_nil, List.sum_nil] at hcons ⊢
    omega
  · rw [settle_opp]
    unfold matches_of
    omega

theorem C30_quantity_accounting_witness :
    ∃ fills e1, demo_engine.process_order ⟨5, 100, 20, "BUY", "LIMIT"⟩ = some (fills, e1) ∧
      ((⟨5, 100, 20, "BUY", "LIMIT"⟩ : Order).type = "LIMIT" →
        e1.order_book.total_quantity = demo_engine.order_book.total_quantity +
          (⟨5, 100, 20, "BUY", "LIMIT"⟩ : Order).quantity - 2 * fills_total fills) ∧
      ((⟨5, 100, 20, "BUY", "LIMIT"⟩ : Order).type = "MARKET" →
        e1.order_book.total_quantity =
          demo_engine.order_book.total_quantity - fills_total fills) ∧
      qty_sum (side_orders (opp_levels e1.order_book ⟨5, 100, 20, "BUY", "LIMIT"⟩)) =
        qty_sum (side_orders (opp_levels demo_engine.order_book
          ⟨5, 100, 20, "BUY", "LIMIT"⟩)) - fills_total fills :=
  C30_quantity_accounting [4, 3, 2, 1] demo_engine ⟨5, 100, 20, "BUY", "LIMIT"⟩
    demo_reachable (by decide)

/-- C24 (the code departs from the claim). After the buy order 1 has been completely filled
by the sell order 2, the reachable state still has the index entry 1 -> (50, bid side),
while no order with id 1 rests anywhere in the book. -/
theorem C24_index_entry_of_filled_order_stays :
    ∃ e, run_orders MatchingEngine.init
        [⟨1, 50, 4, "BUY", "LIMIT"⟩, ⟨2, 50, 4, "SELL", "LIMIT"⟩] = some e ∧
      Reachable [2, 1] e ∧
      e.order_book.order_locations 1 = some (50, true) ∧
      ¬ e.order_book.is_resting 1 ∧ e.order_book.buy_orders = [] ∧
      e.order_book.sell_orders = [] := by
  have h1 := process_order_eq MatchingEngine.init ⟨1, 50, 4, "BUY", "LIMIT"⟩ (Or.inl rfl)
  have h2 := process_order_eq (settle MatchingEngine.init ⟨1, 50, 4, "BUY", "LIMIT"⟩).2
    ⟨2, 50, 4, "SELL", "LIMIT"⟩ (Or.inl rfl)
  refine ⟨(settle (settle MatchingEngine.init ⟨1, 50, 4, "BUY", "LIMIT"⟩).2
      ⟨2, 50, 4, "SELL", "LIMIT"⟩).2, by simp only [run_orders, h1, h2], ?_, by decide,
    by decide, by decide, by decide⟩
  exact Reachable.process _ (Reachable.process _ Reachable.init (by decide) (by decide) h1)
    (by decide) (by decide) h2

/-- C25 (the code departs from the claim). After the sell order 1 at 20 has been completely
filled by the buy order 2, `modify_order 1 7` returns false and leaves an ask level at 20
with an empty deque in the reachable state. -/
theorem C25_modify_leaves_empty_level :
    ∃ e, run_orders MatchingEngine.init
        [⟨1, 20, 3, "SELL", "LIMIT"⟩, ⟨2, 25, 3, "BUY", "LIMIT"⟩] = some e ∧
      Reachable [2, 1] (e.modify_order 1 7).2 ∧
      e.order_book.sell_orders = [] ∧
      (e.modify_order 1 7).1 = false ∧
      (e.modify_order 1 7).2.order_book.sell_orders = [(20, [])] := by
  have h1 := process_order_eq MatchingEngine.init ⟨1, 20, 3, "SELL", "LIMIT"⟩ (Or.inl rfl)
  have h2 := process_order_eq (settle MatchingEngine.init ⟨1, 20, 3, "SELL", "LIMIT"⟩).2
    ⟨2, 25, 3, "BUY", "LIMIT"⟩ (Or.inl rfl)
  refine ⟨(settle (settle MatchingEngine.init ⟨1, 20, 3, "SELL", "LIMIT"⟩).2
      ⟨2, 25, 3, "BUY", "LIMIT"⟩).2, by simp only [run_orders, h1, h2], ?_, by decide,
    by decide, by decide⟩
  exact Reachable.modify 1 7 (Reachable.process _
    (Reachable.process _ Reachable.init (by decide) (by decide) h1) (by decide) (by decide) h2)

/-- C28 (the code departs from the claim). The sell order 1 at 100 is completely filled by
the buy order 2, the buy order 3 then rests at 105 against an empty ask side, and
`modify_order 1 5` creates an empty ask level at 100. In this reachable state
`get_top_of_book` reports best bid 105 and best ask 100. -/
theorem C28_top_of_book_crossed :
    ∃ e, run_orders MatchingEngine.init
        [⟨1, 100, 10, "SELL", "LIMIT"⟩, ⟨2, 100, 10, "BUY", "LIMIT"⟩,
          ⟨3, 105, 5, "BUY", "LIMIT"⟩] = some e ∧
      Reachable [3, 2, 1] (e.modify_order 1 5).2 ∧
      (e.modify_order 1 5).2.order_book.get_top_of_book.best_bid = some 105 ∧
      (e.modify_order 1 5).2.order_book.get_top_of_book.best_ask = some 100 := by
  have h1 := process_order_eq MatchingEngine.init ⟨1, 100, 10, "SELL", "LIMIT"⟩ (Or.inl rfl)
  have h2 := process_order_eq (settle MatchingEngine.init ⟨1, 100, 10, "SELL", "LIMIT"⟩).2
    ⟨2, 100, 10, "BUY", "LIMIT"⟩ (Or.inl rfl)
  have h3 := process_order_eq (settle (settle MatchingEngine.init
    ⟨1, 100, 10, "SELL", "LIMIT"⟩).2 ⟨2, 100, 10, "BUY", "LIMIT"⟩).2
    ⟨3, 105, 5, "BUY", "LIMIT"⟩ (Or.inl rfl)
  refine ⟨(settle (settle (settle MatchingEngine.init ⟨1, 100, 10, "SELL", "LIMIT"⟩).2
      ⟨2, 100, 10, "BUY", "LIMIT"⟩).2 ⟨3, 105, 5, "BUY", "LIMIT"⟩).2,
    by simp only [run_orders, h1, h2, h3], ?_, by decide, by decide⟩
  exact Reachable.modify 1 5 (Reachable.process _ (Reachable.process _
    (Reachable.process _ Reachable.init (by decide) (by decide) h1) (by decide) (by decide) h2)
    (by decide) (by decide) h3)

theorem foldl_stats_count (fills : List Fill) : ∀ e : MatchingEngine,
    (fills.foldl MatchingEngine.update_statistics e).fill_count =
      e.fill_count + fills.length := by
  induction fills with
  | nil => intro e; rfl
  | cons f rest ih =>
    intro e
    rw [List.foldl_cons, ih]
    simp only [MatchingEngine.update_statistics, List.length_cons]
    omega

theorem foldl_stats_volume (fills : List Fill) : ∀ e : MatchingEngine,
    (fills.foldl MatchingEngine.update_statistics e).total_traded_volume =
      e.total_traded_volume + fills_notional fills := by
  induction fills with
  | nil => intro e; simp [fills_notional]
  | cons f rest ih =>
    intro e
    rw [List.foldl_cons, ih]
    simp only [MatchingEngine.update_statistics, fills_notional, List.map_cons, List.sum_cons]
    ring

theorem settle_stats (e : MatchingEngine) (o : Order) :
    (settle e o).2.fill_count = e.fill_count + (settle e o).1.length ∧
    (settle e o).2.total_traded_volume =
      e.total_traded_volume + fills_notional (settle e o).1 := by
  simp only [settle, foldl_stats_count, foldl_stats_volume, and_self]

/-- What `process_order` does to the two aggregates, in any engine state. -/
theorem process_order_stats (e : MatchingEngine) (o : Order) (fills : List Fill)
    (e1 : MatchingEngine) (h : e.process_order o = some (fills, e1)) :
    e1.fill_count = e.fill_count + fills.length ∧
    e1.total_traded_volume = e.total_traded_volume + fills_notional fills := by
  by_cases hl : o.type = "LIMIT"
  · rw [process_order_eq e o (Or.inl hl)] at h
    simp only [Option.some.injEq] at h
    have := settle_stats e o
    rw [h] at this
    exact this
  · by_cases hm : o.type = "MARKET"
    · rw [process_order_eq e o (Or.inr hm)] at h
      simp only [Option.some.injEq] at h
      have := settle_stats e o
      rw [h] at this
      exact this
    · have h1 : o.is_limit = false := by simp [Order.is_limit, hl]
      have h2 : o.is_market = false := by simp [Order.is_market, hm]
      simp only [MatchingEngine.process_order, h1, h2, Bool.false_eq_true, if_false,
        Option.some.injEq, Prod.mk.injEq] at h
      obtain ⟨rfl, rfl⟩ := h
      simp [fills_notional]

theorem cancel_resting_sublist (b : OrderBook) (id : Nat) :
    (b.cancel_order id).2.resting.Sublist b.resting := by
  unfold OrderBook.cancel_order
  cases hloc : b.order_locations id with
  | none => exact List.Sublist.refl _
  | some pf =>
    obtain ⟨p, flag⟩ := pf
    cases flag with
    | true =>
      simp only [OrderBook.remove_order_from_level, if_true, OrderBook.clean_empty_levels,
        OrderBook.resting, side_orders_clean]
      exact List.Sublist.append (map_at_filter_sublist _ _ _ _) (List.Sublist.refl _)
    | false =>
      simp only [OrderBook.remove_order_from_level, Bool.false_eq_true, if_false,
        OrderBook.clean_empty_levels, OrderBook.resting, side_orders_clean]
      exact List.Sublist.append (List.Sublist.refl _) (map_at_filter_sublist _ _ _ _)

theorem map_at_edit_same (before : Int → Int → Bool) (p : Int) (id : Nat) (nq : Int)
    (m : List Level) :
    ∀ y ∈ side_orders (map_at before p (fun q => (modify_first id nq q).getD q) m),
      ∃ x ∈ side_orders m, y.same_but_quantity x := by
  obtain ⟨A, q, B, h1, h2, -⟩ :=
    map_at_orders before p (fun q => (modify_first id nq q).getD q) m
  rw [h1, h2]
  intro y hy
  simp only [List.mem_append] at hy ⊢
  rcases hy with (hy | hy) | hy
  · exact ⟨y, Or.inl (Or.inl hy), ⟨rfl, rfl, rfl, rfl⟩⟩
  · obtain ⟨x, hx, hsame, -⟩ := modify_first_mem id nq q y hy
    exact ⟨x, Or.inl (Or.inr hx), hsame⟩
  · exact ⟨y, Or.inr hy, ⟨rfl, rfl, rfl, rfl⟩⟩

theorem modify_resting_same (b : OrderBook) (id : Nat) (nq : Int) :
    ∀ y ∈ (b.modify_order id nq).2.resting, ∃ x ∈ b.resting, y.same_but_quantity x := by
  have hself : ∀ y ∈ b.resting, ∃ x ∈ b.resting, y.same_but_quantity x :=
    fun y hy => ⟨y, hy, ⟨rfl, rfl, rfl, rfl⟩⟩
  unfold OrderBook.modify_order
  cases hloc : b.order_locations id with
  | none => exact hself
  | some pf =>
    obtain ⟨p, flag⟩ := pf
    by_cases hq : nq ≤ 0
    · simp only [hq, if_true]; exact hself
    · cases flag with
      | true =>
        simp only [hq, if_false, if_true, OrderBook.resting]
        intro y hy
        rcases List.mem_append.mp hy with h | h
        · obtain ⟨x, hx, hs⟩ := map_at_edit_same _ _ _ _ _ y h
          exact ⟨x, List.mem_append_left _ hx, hs⟩
        · exact ⟨y, List.mem_append_right _ h, ⟨rfl, rfl, rfl, rfl⟩⟩
      | false =>
        simp only [hq, if_false, Bool.false_eq_true, OrderBook.resting]
        intro y hy
        rcases List.mem_append.mp hy with h | h
        · exact ⟨y, List.mem_append_left _ h, ⟨rfl, rfl, rfl, rfl⟩⟩
        · obtain ⟨x, hx, hs⟩ := map_at_edit_same _ _ _ _ _ y h
          exact ⟨x, List.mem_append_right _ hx, hs⟩

theorem settle_price_pos (e : MatchingEngine) (o : Order) (hv : o.Validated)
    (h : ∀ x ∈ e.order_book.resting, 0 < x.price) :
    ∀ y ∈ (settle e o).2.order_book.resting, 0 < y.price := by
  intro y hy
  rcases List.mem_append.mp ((settle_resting e o).subset hy) with h1 | h1
  · split at h1
    · rename_i hc
      have : y = { o with quantity := (matches_of e o).1 } := by simpa using h1
      rw [this]
      exact hv.spec.2.2.2 (by simpa [Order.is_limit] using hc.1)
    · simp at h1
  · rcases List.mem_append.mp h1 with h2 | h2
    · obtain ⟨l1, hl1, hy1⟩ := mem_side_orders.mp h2
      obtain ⟨l, hl, -, hall⟩ := sweep_levels _ _ _ l1 hl1
      obtain ⟨x, hx, ⟨-, hp, -, -⟩, -⟩ := hall y hy1
      rw [hp]
      exact h x ((resting_perm_sides e.order_book o).symm.subset
        (List.mem_append_left _ (mem_side_orders.mpr ⟨l, hl, hx⟩)))
    · exact h y ((resting_perm_sides e.order_book o).symm.subset
        (List.mem_append_right _ h2))

/-- Every order resting in a reachable book has a positive price. -/
theorem Reachable.price_pos {used : List Nat} {e : MatchingEngine} (h : Reachable used e) :
    ∀ x ∈ e.order_book.resting, 0 < x.price := by
  induction h with
  | init => intro x hx; simp [MatchingEngine.init, OrderBook.init, OrderBook.resting] at hx
  | process o _ hv _ hp ih =>
    rw [process_order_eq _ o hv.spec.2.1] at hp
    simp only [Option.some.injEq] at hp
    have := settle_price_pos _ o hv ih
    rw [hp] at this
    exact this
  | cancel id _ ih =>
    intro x hx
    exact ih x ((cancel_resting_sublist _ id).subset hx)
  | modify id nq _ ih =>
    intro y hy
    obtain ⟨x, hx, -, hp, -, -⟩ := modify_resting_same _ id nq y hy
    rw [hp]; exact ih x hx

theorem Steps.reachable {used0 used : List Nat} {e0 e : MatchingEngine}
    (hs : Steps used0 e0 used e) : Reachable used0 e0 → Reachable used e := by
  induction hs with
  | refl => exact fun h0 => h0
  | process o _ hv hf hp ih => exact fun h0 => Reachable.process o (ih h0) hv hf hp
  | cancel id _ ih => exact fun h0 => Reachable.cancel id (ih h0)
  | modify id nq _ ih => exact fun h0 => Reachable.modify id nq (ih h0)

theorem fills_notional_nonneg (fills : List Fill)
    (h : ∀ f ∈ fills, 0 < f.price ∧ 0 < f.quantity) : 0 ≤ fills_notional fills := by
  unfold fills_notional
  refine List.sum_nonneg ?_
  intro x hx
  obtain ⟨f, hf, rfl⟩ := List.mem_map.mp hx
  exact le_of_lt (mul_pos (h f hf).1 (h f hf).2)

/-- In a reachable state the fills of a validated order have positive prices and
positive quantities. -/
theorem settle_fills_pos {used : List Nat} {e : MatchingEngine} (hr : Reachable used e)
    (o : Order) : ∀ f ∈ (settle e o).1, 0 < f.price ∧ 0 < f.quantity := by
  intro f hf
  obtain ⟨ev, hev, rfl⟩ := List.mem_map.mp hf
  have hinv := hr.inv
  have hpos : ∀ x ∈ side_orders (opp_levels e.order_book o), 0 < x.quantity :=
    fun x hx => hinv.qty_pos x (hinv.mem_opp o hx)
  obtain ⟨h1, -, h3⟩ := sweep_ev_pos _ _ _ hpos ev hev
  rw [fill_of_price, fill_of_quantity]
  exact ⟨hr.price_pos _ (hinv.mem_opp o h3), h1⟩

/-- The aggregates never decrease along a sequence of operations that starts in a
reachable state. -/
theorem Steps.stats_mono {used0 used : List Nat} {e0 e : MatchingEngine}
    (hs : Steps used0 e0 used e) : Reachable used0 e0 →
    e0.fill_count ≤ e.fill_count ∧ e0.total_traded_volume ≤ e.total_traded_volume := by
  induction hs with
  | refl => exact fun _ => ⟨le_refl _, le_refl _⟩
  | process o hs hv hf hp ih =>
    intro h0
    have hr := hs.reachable h0
    obtain ⟨h1, h2⟩ := process_order_stats _ o _ _ hp
    have hpos := settle_fills_pos hr o
    rw [process_order_eq _ o hv.spec.2.1] at hp
    simp only [Option.some.injEq] at hp
    rw [hp] at hpos
    have hn : 0 ≤ fills_notional _ := fills_notional_nonneg _ hpos
    simp only at hn
    obtain ⟨i1, i2⟩ := ih h0
    constructor
    · omega
    · omega
  | cancel id _ ih => exact fun h0 => ih h0
  | modify id nq _ ih => exact fun h0 => ih h0

/-- C23: statistics accounting. In any engine state, a `process_order` call that returns
the fill list F raises `fill_count` by the length of F and `total_traded_volume` by the
sum over F of price times quantity (for an order whose type is neither LIMIT nor MARKET
F is empty and nothing changes); `MatchingEngine::cancel_order` and
`MatchingEngine::modify_order` return the book's result and leave both aggregates
unchanged. Hence along any sequence of operations that starts in a reachable state
(where every resting price is positive) neither aggregate decreases. -/
theorem C23_statistics_accounting (used : List Nat) (e : MatchingEngine)
    (hr : Reachable used e) :
    (∀ (s : MatchingEngine) (o : Order) (fills : List Fill) (s1 : MatchingEngine),
      s.process_order o = some (fills, s1) →
        s1.fill_count = s.fill_count + fills.length ∧
        s1.total_traded_volume = s.total_traded_volume + fills_notional fills) ∧
    (∀ (s : MatchingEngine) (o : Order), o.type ≠ "LIMIT" → o.type ≠ "MARKET" →
      s.process_order o = some ([], s)) ∧
    (∀ (s : MatchingEngine) (order_id : Nat),
      (s.cancel_order order_id).1 = (s.order_book.cancel_order order_id).1 ∧
      (s.cancel_order order_id).2.order_book = (s.order_book.cancel_order order_id).2 ∧
      (s.cancel_order order_id).2.fill_count = s.fill_count ∧
      (s.cancel_order order_id).2.total_traded_volume = s.total_traded_volume) ∧
    (∀ (s : MatchingEngine) (order_id : Nat) (new_quantity : Int),
      (s.modify_order order_id new_quantity).1 =
        (s.order_book.modify_order order_id new_quantity).1 ∧
      (s.modify_order order_id new_quantity).2.order_book =
        (s.order_book.modify_order order_id new_quantity).2 ∧
      (s.modify_order order_id new_quantity).2.fill_count = s.fill_count ∧
      (s.modify_order order_id new_quantity).2.total_traded_volume =
        s.total_traded_volume) ∧
    (∀ x ∈ e.order_book.resting, 0 < x.price) ∧
    (∀ (used1 : List Nat) (e1 : MatchingEngine), Steps used e used1 e1 →
      e.fill_count ≤ e1.fill_count ∧ e.total_traded_volume ≤ e1.total_traded_volume) := by
  refine ⟨process_order_stats, ?_, fun s id => ⟨rfl, rfl, rfl, rfl⟩,
    fun s id nq => ⟨rfl, rfl, rfl, rfl⟩, hr.price_pos, fun used1 e1 hs => hs.stats_mono hr⟩
  intro s o hl hm
  have h1 : o.is_limit = false := by simp [Order.is_limit, hl]
  have h2 : o.is_market = false := by simp [Order.is_market, hm]
  simp only [MatchingEngine.process_order, h1, h2, Bool.false_eq_true, if_false]

theorem C23_statistics_accounting_witness :
    Reachable [4, 3, 2, 1] demo_engine ∧
    Steps [4, 3, 2, 1] demo_engine [4, 3, 2, 1] (demo_engine.cancel_order 1).2 ∧
    demo_engine.fill_count ≤ (demo_engine.cancel_order 1).2.fill_count ∧
    demo_engine.total_traded_volume ≤ (demo_engine.cancel_order 1).2.total_traded_volume :=
  ⟨demo_reachable, Steps.cancel 1 (Steps.refl _ _),
    (C23_statistics_accounting [4, 3, 2, 1] demo_engine demo_reachable).2.2.2.2.2 _ _
      (Steps.cancel 1 (Steps.refl _ _))⟩

/-- C31 (the code departs from the claim). The buy order 1 at 30 is completely filled by the
sell order 2, and `modify_order 1 9` then returns false but leaves a bid level at 30 with an
empty deque. In this reachable state `total_orders` is 0 while `empty` is false. Only the
other direction holds in every book: when `empty` is true, `total_orders` is 0. -/
theorem C31_empty_false_with_no_orders :
    (∃ e, run_orders MatchingEngine.init
        [⟨1, 30, 2, "BUY", "LIMIT"⟩, ⟨2, 29, 2, "SELL", "LIMIT"⟩] = some e ∧
      Reachable [2, 1] (e.modify_order 1 9).2 ∧
      e.order_book.empty = true ∧ e.order_book.total_orders = 0 ∧
      (e.modify_order 1 9).1 = false ∧
      (e.modify_order 1 9).2.order_book.buy_orders = [(30, [])] ∧
      (e.modify_order 1 9).2.order_book.total_orders = 0 ∧
      (e.modify_order 1 9).2.order_book.empty = false) ∧
    (∀ b : OrderBook, b.empty = true → b.total_orders = 0) := by
  have h1 := process_order_eq MatchingEngine.init ⟨1, 30, 2, "BUY", "LIMIT"⟩ (Or.inl rfl)
  have h2 := process_order_eq (settle MatchingEngine.init ⟨1, 30, 2, "BUY", "LIMIT"⟩).2
    ⟨2, 29, 2, "SELL", "LIMIT"⟩ (Or.inl rfl)
  refine ⟨⟨(settle (settle MatchingEngine.init ⟨1, 30, 2, "BUY", "LIMIT"⟩).2
      ⟨2, 29, 2, "SELL", "LIMIT"⟩).2, by simp only [run_orders, h1, h2], ?_, by decide,
    by decide, by decide, by decide, by decide, by decide⟩, ?_⟩
  · exact Reachable.modify 1 9 (Reachable.process _
      (Reachable.process _ Reachable.init (by decide) (by decide) h1) (by decide) (by decide) h2)
  · intro b hb
    simp only [OrderBook.empty, Bool.and_eq_true, List.isEmpty_iff] at hb
    simp [OrderBook.total_orders, hb.1, hb.2]

end LOB
